import Mathlib

/-
Verification of the nano-vue-i18n runtime translation resolver
(src/index.ts).  Strings are modelled as lists of characters, the
JavaScript Map as an association list with last-write-wins lookup, and
the two query operations t and tc as pure functions returning the
produced string together with the list of emitted diagnostics.
A JavaScript value of undefined (an out-of-range array access) is
modelled as none.
-/

namespace NanoI18n

/-- Strings are modelled as lists of characters. -/
abbrev Str := List Char

/-- NANO_VUE_I18N_PLURAL_SEPARATOR, the reserved character U+0001 used
internally to mark plural-variant boundaries. -/
def sep : Char := '\x01'

/-- JavaScript regular-expression whitespace class (backslash-s), as used by
the PLURAL_REGEX in flattenMessages and by String.prototype.trim. -/
def isWS (c : Char) : Bool :=
  let n := c.toNat
  n == 32 || (decide (9 ≤ n) && decide (n ≤ 13)) || n == 0xA0 || n == 0x1680 ||
  (decide (0x2000 ≤ n) && decide (n ≤ 0x200A)) || n == 0x2028 || n == 0x2029 ||
  n == 0x202F || n == 0x205F || n == 0x3000 || n == 0xFEFF

/-- JavaScript word-character class (backslash-w): letters, digits, underscore,
as used by PARAM_REGEX. -/
def isWordChar (c : Char) : Bool :=
  (decide ('a' ≤ c) && decide (c ≤ 'z')) || (decide ('A' ≤ c) && decide (c ≤ 'Z')) ||
  (decide ('0' ≤ c) && decide (c ≤ '9')) || c == '_'

/-- Drop leading whitespace (the left half of String.prototype.trim). -/
def lstrip (s : Str) : Str := s.dropWhile isWS

/-- Drop trailing whitespace (the right half of String.prototype.trim). -/
def rstrip : Str → Str
  | [] => []
  | c :: rest =>
    match rstrip rest with
    | [] => if isWS c then [] else [c]
    | r => c :: r

/-- String.prototype.trim: remove leading and trailing whitespace. -/
def trim (s : Str) : Str := lstrip (rstrip s)

/-- String.prototype.split at every occurrence of the plural separator
character, as in constructPluralizationFormsMap.  Always returns a
non-empty list of separator-free pieces. -/
def splitSep : Str → List Str
  | [] => [[]]
  | c :: rest =>
    if c = sep then [] :: splitSep rest
    else
      match splitSep rest with
      | [] => [[c]]
      | piece :: more => (c :: piece) :: more

/-- Array.prototype.join with a one-character separator. -/
def joinSep (c : Char) : List Str → Str
  | [] => []
  | [v] => v
  | v :: rest => v ++ c :: joinSep c rest

/-- One left-to-right pass implementing
String.prototype.replace(PLURAL_REGEX, sep) where PLURAL_REGEX is the
global regex: optional whitespace, a pipe, optional whitespace.
The first argument is true while the scanner sits inside the greedy
trailing whitespace of a just-replaced match; the second argument holds a
pending whitespace run that is discarded if it turns out to precede a
pipe (it belongs to the match) and emitted otherwise. -/
def pipeGo : Bool → Str → Str → Str
  | _, pending, [] => pending
  | skip, pending, c :: rest =>
    if c = '|' then sep :: pipeGo true [] rest
    else if isWS c then
      if skip then pipeGo true [] rest
      else pipeGo false (pending ++ [c]) rest
    else pending ++ c :: pipeGo false [] rest

/-- value.replace(PLURAL_REGEX, NANO_VUE_I18N_PLURAL_SEPARATOR): replace
every run of whitespace-pipe-whitespace by the internal separator. -/
def pipeReplace (s : Str) : Str := pipeGo false [] s

/-- Replace every occurrence of the internal separator character by a
literal pipe (used to state that a forged separator behaves exactly as a
written pipe). -/
def sepToPipe (s : Str) : Str := s.map (fun c => if c = sep then '|' else c)

mutual
/-- A node of the caller-supplied locale message tree: a string leaf, an
array-of-strings leaf (the alternate plural-variant encoding), or a
nested object. -/
inductive Msg : Type where
  | str : Str → Msg
  | arr : List Str → Msg
  | obj : Entries → Msg
/-- The ordered own-property entries of a message object, iterated in
insertion order by the for-in loop of flattenMessages. -/
inductive Entries : Type where
  | nil : Entries
  | cons : Str → Msg → Entries → Entries
end

/-- The composite key built by flattenMessages: fullKey is key when the
prefix is empty, and prefix dot key otherwise. -/
def mkKey (pre k : Str) : Str := if pre = [] then k else pre ++ '.' :: k

mutual
/-- flattenMessages: depth-first flattening of a message object into an
ordered list of (dot-notation key, canonical value) bindings.  The
JavaScript Map built from it resolves duplicate keys as last write
wins (see mapGet). -/
def flattenMessages : Entries → Str → List (Str × Str)
  | .nil, _ => []
  | .cons k v rest, pre => flattenValue (mkKey pre k) v ++ flattenMessages rest pre
/-- The binding(s) contributed by one entry of flattenMessages: a string
leaf has its whitespace-pipe-whitespace runs replaced by the internal
separator, an array leaf is joined with the internal separator, and a
nested object recurses with the extended prefix. -/
def flattenValue : Str → Msg → List (Str × Str)
  | fullKey, .str s => [(fullKey, pipeReplace s)]
  | fullKey, .arr vs => [(fullKey, joinSep sep vs)]
  | fullKey, .obj es => flattenMessages es fullKey
end

/-- JavaScript Map.get over the ordered binding list produced by repeated
Map.set calls: the last binding for a key wins. -/
def mapGet {α : Type} : List (Str × α) → Str → Option α
  | [], _ => none
  | (k', v) :: rest, k =>
    match mapGet rest k with
    | some r => some r
    | none => if k = k' then some v else none

/-- A pluralization rule: from the non-negative magnitude of the count to
a zero-based variant-selection index (a JavaScript number, possibly out
of range). -/
def PluralRule : Type := Nat → Int

/-- The ru entry of defaultPluralRules. -/
def ruRule : PluralRule := fun n =>
  if n % 10 = 1 ∧ n % 100 ≠ 11 then 0
  else if 2 ≤ n % 10 ∧ n % 10 ≤ 4 ∧ (n % 100 < 10 ∨ 20 ≤ n % 100) then 1
  else 2

/-- The pl entry of defaultPluralRules. -/
def plRule : PluralRule := fun n =>
  if n = 1 then 0
  else if 2 ≤ n % 10 ∧ n % 10 ≤ 4 ∧ (n % 100 < 10 ∨ 20 ≤ n % 100) then 1
  else 2

/-- The ar entry of defaultPluralRules. -/
def arRule : PluralRule := fun n =>
  if n = 0 then 0
  else if n = 1 then 1
  else if n = 2 then 2
  else if 3 ≤ n % 100 ∧ n % 100 ≤ 10 then 3
  else if 11 ≤ n % 100 ∧ n % 100 ≤ 99 then 4
  else 5

/-- The one-if-singular-else-two rule shared by en, de, es, and used as
the universal default in applyPlural. -/
def oneOtherRule : PluralRule := fun n => if n = 1 then 0 else 1

/-- defaultPluralRules: the built-in per-locale rule table, in source
order. -/
def defaultPluralRules : List (Str × PluralRule) :=
  [("zh".data, fun _ => 0), ("zh-CN".data, fun _ => 0), ("zh-TW".data, fun _ => 0),
   ("en".data, oneOtherRule), ("ja".data, fun _ => 0), ("ko".data, fun _ => 0),
   ("fr".data, fun n => if n = 0 ∨ n = 1 then 0 else 1),
   ("de".data, oneOtherRule), ("es".data, oneOtherRule),
   ("ru".data, ruRule), ("pl".data, plRule), ("ar".data, arRule)]

/-- Construction-time configuration of createI18n, restricted to the
fields the resolver core reads.  The reactive locale ref is modelled by
its current value. -/
structure Config where
  locale : Str
  fallbackLocale : Str
  messages : Entries
  missingWarn : Option Bool
  customPluralRules : List (Str × PluralRule)

/-- constructPluralizationRulesMap followed by Map.get: defaults are
inserted first, then caller overrides, so the override wins per key. -/
def rulesMapGet (cfg : Config) (loc : Str) : Option PluralRule :=
  mapGet (defaultPluralRules ++ cfg.customPluralRules) loc

/-- translationMap: the flattened cross-locale index. -/
def translationMap (cfg : Config) : List (Str × Str) :=
  flattenMessages cfg.messages []

/-- constructPluralizationFormsMap followed by Map.get: a key is present
exactly when its canonical value contains the internal separator, and it
maps to the separator-split, individually trimmed variant list. -/
def formsGet (cfg : Config) (k : Str) : Option (List Str) :=
  match mapGet (translationMap cfg) k with
  | some v => if sep ∈ v then some ((splitSep v).map trim) else none
  | none => none

/-- The forms lookup at the head of applyPlural: current locale first,
then the fallback locale. -/
def resolvedForms (cfg : Config) (key : Str) : Option (List Str) :=
  match formsGet cfg (cfg.locale ++ '.' :: key) with
  | some fs => some fs
  | none => formsGet cfg (cfg.fallbackLocale ++ '.' :: key)

/-- The rule lookup of applyPlural: current locale, else fallback locale,
else the universal default. -/
def resolvedRule (cfg : Config) : PluralRule :=
  match rulesMapGet cfg cfg.locale with
  | some r => r
  | none =>
    match rulesMapGet cfg cfg.fallbackLocale with
    | some r => r
    | none => oneOtherRule

/-- A diagnostic emitted on console.warn. -/
inductive Diag : Type where
  | missingKey : Str → Diag
  | nanCount : Diag
deriving DecidableEq

/-- The warning-suppression test options.missingWarn !== false. -/
def warnIfEnabled (cfg : Config) (d : Diag) : List Diag :=
  if cfg.missingWarn = some false then [] else [d]

/-- getTranslation: current-locale lookup, fallback-locale lookup, then
warn (unless suppressed) and return the key itself. -/
def getTranslation (cfg : Config) (key : Str) : Str × List Diag :=
  match mapGet (translationMap cfg) (cfg.locale ++ '.' :: key) with
  | some tr => (tr, [])
  | none =>
    match mapGet (translationMap cfg) (cfg.fallbackLocale ++ '.' :: key) with
    | some tr => (tr, [])
    | none => (key, warnIfEnabled cfg (.missingKey key))

/-- JavaScript array indexing forms[i] for an integer index: undefined
(none) when the index is negative or past the end. -/
def jsElem (forms : List Str) (i : Int) : Option Str :=
  if i < 0 then none else forms[i.toNat]?

/-- applyPlural: select a plural variant for the key, or fall back to the
plain getTranslation result when the key has no variant set.  The
selection index is rule(abs(count)) capped from above at length - 1 by
Math.min. -/
def applyPlural (cfg : Config) (key : Str) (count : Int) : Option Str × List Diag :=
  match resolvedForms cfg key with
  | none =>
    let r := getTranslation cfg key
    (some r.1, r.2)
  | some forms =>
    if forms.length = 0 then
      let r := getTranslation cfg key
      (some r.1, r.2)
    else
      (jsElem forms (min (resolvedRule cfg count.natAbs) ((forms.length : Int) - 1)), [])

/-- A JavaScript value usable as an interpolation parameter. -/
inductive JsVal : Type where
  | str : Str → JsVal
  | num : Int → JsVal
  | bool : Bool → JsVal
deriving DecidableEq

/-- String(value): the standard textual conversion applied to a
substituted parameter. -/
def jsToString : JsVal → Str
  | .str s => s
  | .num n => (toString n).data
  | .bool b => if b then "true".data else "false".data

/-- The dereferenced params object: ordered own properties with unique
keys; the in-operator is presence in the list. -/
def Params : Type := List (Str × JsVal)

/-- Property access params[paramName] guarded by the in-operator. -/
def lookupParam (ps : Params) (name : Str) : Option JsVal :=
  (ps.find? (fun p => decide (p.1 = name))).map (·.2)

/-- One left-to-right pass implementing
template.replace(PARAM_REGEX, ...) with PARAM_REGEX the global regex:
left brace, one or more word characters captured, right brace.  The
state is none while scanning ordinary text and some acc after an opening
brace, acc holding the word characters read so far. -/
def replaceGo (ps : Params) : Option Str → Str → Str
  | none, [] => []
  | none, c :: rest =>
    if c = '\x7b' then replaceGo ps (some []) rest
    else c :: replaceGo ps none rest
  | some acc, [] => '\x7b' :: acc
  | some acc, c :: rest =>
    if isWordChar c then replaceGo ps (some (acc ++ [c])) rest
    else if c = '\x7d' then
      if acc = [] then '\x7b' :: '\x7d' :: replaceGo ps none rest
      else
        match lookupParam ps acc with
        | some v => jsToString v ++ replaceGo ps none rest
        | none => '\x7b' :: (acc ++ '\x7d' :: replaceGo ps none rest)
    else if c = '\x7b' then '\x7b' :: (acc ++ replaceGo ps (some []) rest)
    else '\x7b' :: (acc ++ c :: replaceGo ps none rest)

/-- interpolate: return the template unchanged when no params are given,
otherwise substitute every present placeholder and leave absent ones as
literal text. -/
def interpolate (template : Str) (params : Option Params) : Str :=
  match params with
  | none => template
  | some ps => replaceGo ps none template

/-- The public operation t: plain lookup piped through interpolation. -/
def t (cfg : Config) (key : Str) (params : Option Params) : Str × List Diag :=
  let r := getTranslation cfg key
  (interpolate r.1 params, r.2)

/-- A JavaScript count argument: NaN or an integer number. -/
inductive JsCount : Type where
  | nan : JsCount
  | int : Int → JsCount

/-- The public operation tc: warn on NaN count (unless suppressed) and
default the count to 1, then pluralize and interpolate.  A first
component of none models the undefined/TypeError outcome of indexing the
variant array at a negative position. -/
def tc (cfg : Config) (key : Str) (count : JsCount) (params : Option Params) :
    Option Str × List Diag :=
  match count with
  | .nan =>
    let w := warnIfEnabled cfg .nanCount
    let r := applyPlural cfg key 1
    (r.1.map (fun s => interpolate s params), w ++ r.2)
  | .int n =>
    let r := applyPlural cfg key n
    (r.1.map (fun s => interpolate s params), r.2)

/-- The dot-joined path string the caller passes as the key. -/
def dotJoin (p : List Str) : Str := joinSep '.' p

/-- A chain of singleton objects ending in the given leaf, used to build
a message tree whose only leaf sits at a given dot-path. -/
def chainM : List Str → Msg → Msg
  | [], m => m
  | k :: ks, m => .obj (.cons k (chainM ks m) .nil)

/-- A configuration holding a single locale whose tree has one leaf at
the given path, with current and fallback locale both that locale. -/
def mkCfg (L : Str) (p : List Str) (leaf : Msg) (mw : Option Bool)
    (rules : List (Str × PluralRule)) : Config :=
  { locale := L, fallbackLocale := L,
    messages := .cons L (chainM p leaf) .nil,
    missingWarn := mw, customPluralRules := rules }

/-- The separator-split, per-piece-trimmed variant list of a canonical
value, as stored in the plural variant table. -/
def trimmedSplit (s : Str) : List Str := (splitSep s).map trim

/-- Apply a function to the last element of a list. -/
def modLast (f : Str → Str) : List Str → List Str
  | [] => []
  | [a] => [f a]
  | a :: b :: rest => a :: modLast f (b :: rest)

/-- Apply a function to the first element of a list. -/
def modFirst (f : Str → Str) : List Str → List Str
  | [] => []
  | a :: rest => f a :: rest

/-- The composite key of a leaf below the full key K at the residual path
p: K itself when p is empty, K dot dotJoin p otherwise. -/
def extKey (K : Str) (p : List Str) : Str :=
  if p = [] then K else K ++ '.' :: dotJoin p

/-- The own keys of a message object, in order. -/
def topKeys : Entries → List Str
  | .nil => []
  | .cons k _ rest => k :: topKeys rest

mutual
/-- Well-formedness of a message node (the spec's well-formed message
trees): below every object, keys are non-empty, dot-free and pairwise
distinct, so flattened composite keys never collide. -/
def wfMsg : Msg → Bool
  | .str _ => true
  | .arr _ => true
  | .obj es => wfEntries es
/-- Well-formedness of the entries of a message object. -/
def wfEntries : Entries → Bool
  | .nil => true
  | .cons k v rest =>
    decide (k ≠ []) && decide ('.' ∉ k) && decide (k ∉ topKeys rest) &&
    wfMsg v && wfEntries rest
end

mutual
/-- The string leaf s is reachable from the message node at the given
path of keys (the empty path reaches a string leaf itself). -/
def reachesM : Msg → List Str → Str → Bool
  | .str s', [], s => decide (s' = s)
  | .obj es, k :: p, s => reachesE es (k :: p) s
  | _, _, _ => false
/-- The string leaf s is reachable from the entry list at the given
non-empty path of keys. -/
def reachesE : Entries → List Str → Str → Bool
  | .cons k v rest, k' :: p', s =>
    if k' = k then reachesM v p' s else reachesE rest (k' :: p') s
  | _, _, _ => false
end

/-- Counterexample configuration for claim C1: an English two-variant key
with a caller-supplied rule that returns the negative index -1. -/
def cfgC1x : Config :=
  mkCfg "en".data ["k".data] (.str "a|b".data) none [("en".data, fun _ => -1)]

/-- Witness configuration for claim C1: an English two-variant key with a
caller-supplied rule that returns the above-range index 99. -/
def cfgC1w : Config :=
  mkCfg "en".data ["k".data] (.str "a|b".data) none [("en".data, fun _ => 99)]

/-- Configuration for claim C2: the English plural key of the
repository's NaN-handling test. -/
def cfgC2x : Config :=
  mkCfg "en".data ["apple".data] (.str "one apple|many apples".data) none []

/-- Witness configuration for claim C3: a two-level English tree. -/
def cfgC3w : Config :=
  { locale := "en".data, fallbackLocale := "en".data,
    messages := .cons "en".data
      (.obj (.cons "a".data (.obj (.cons "b".data (.str "hi".data) .nil)) .nil)) .nil,
    missingWarn := none, customPluralRules := [] }

/-- Witness configuration for claim C4: current locale fr absent from the
messages, fallback locale en present. -/
def cfgC4w : Config :=
  { locale := "fr".data, fallbackLocale := "en".data,
    messages := .cons "en".data (.obj (.cons "greeting".data (.str "Hello".data) .nil)) .nil,
    missingWarn := none, customPluralRules := [] }

/-- The empty-messages configuration of claim C4. -/
def cfgC4e : Config :=
  { locale := "en".data, fallbackLocale := "en".data, messages := .nil,
    missingWarn := none, customPluralRules := [] }

/-- Counterexample configurations for claim C5: the same singleton
variant list containing a pipe, declared in array form and in pipe-joined
string form. -/
def cfgC5xa : Config := mkCfg "en".data ["k".data] (.arr ["x|y".data]) none []

/-- The pipe-form counterpart of cfgC5xa. -/
def cfgC5xp : Config := mkCfg "en".data ["k".data] (.str "x|y".data) none []

/-- Russian three-variant configuration for claim C7. -/
def cfgC7 : Config := mkCfg "ru".data ["apple".data] (.str "A|B|C".data) none []

/-- Whitespace-around-pipes configuration for claim C8. -/
def cfgC8 : Config := mkCfg "en".data ["k".data] (.str "  one  |  many  ".data) none []

/-- Counterexample configuration for claim C9: a singleton array
declaration. -/
def cfgC9x : Config := mkCfg "en".data ["k".data] (.arr ["a".data]) none []

/-! Basic character facts. -/

theorem isWS_sep : isWS sep = false := by decide

theorem isWS_pipe : isWS '|' = false := by decide

theorem sep_ne_pipe : sep ≠ '|' := by decide

/-! Lemmas about lstrip, rstrip and trim. -/

theorem rstrip_nil : rstrip [] = [] := rfl

theorem rstrip_cons (c : Char) (s : Str) :
    rstrip (c :: s) = match rstrip s with
      | [] => if isWS c then [] else [c]
      | r => c :: r := rfl

theorem rstrip_cons_nonws {c : Char} (h : isWS c = false) (s : Str) :
    rstrip (c :: s) = c :: rstrip s := by
  rw [rstrip_cons]
  cases hr : rstrip s with
  | nil => simp [h]
  | cons a r => rfl

theorem rstrip_cons_of_ne {s : Str} (h : rstrip s ≠ []) (c : Char) :
    rstrip (c :: s) = c :: rstrip s := by
  rw [rstrip_cons]
  cases hr : rstrip s with
  | nil => exact absurd hr h
  | cons a r => rfl

theorem lstrip_nil : lstrip [] = [] := rfl

theorem lstrip_cons (c : Char) (s : Str) :
    lstrip (c :: s) = if isWS c then lstrip s else c :: s := by
  simp [lstrip, List.dropWhile_cons]

theorem rstrip_cons_all_ws {c : Char} {s : Str} (hc : isWS c = true)
    (hs : rstrip s = []) : rstrip (c :: s) = [] := by
  rw [rstrip_cons, hs, hc]
  rfl

theorem rstrip_append_nonws {c : Char} (h : isWS c = false) (a b : Str) :
    rstrip (a ++ c :: b) = a ++ c :: rstrip b := by
  induction a with
  | nil => simpa using rstrip_cons_nonws h b
  | cons d a' ih =>
    have hne : rstrip (a' ++ c :: b) ≠ [] := by
      rw [ih]; simp
    show rstrip (d :: (a' ++ c :: b)) = d :: (a' ++ c :: rstrip b)
    rw [rstrip_cons_of_ne hne d, ih]

theorem rstrip_of_all_ws {w : Str} (h : ∀ c ∈ w, isWS c = true) : rstrip w = [] := by
  induction w with
  | nil => rfl
  | cons c w' ih =>
    exact rstrip_cons_all_ws (h c (List.mem_cons_self _ _))
      (ih (fun c hc => h c (List.mem_cons_of_mem _ hc)))

theorem rstrip_decomp (s : Str) :
    ∃ w, s = rstrip s ++ w ∧ ∀ c ∈ w, isWS c = true := by
  induction s with
  | nil => exact ⟨[], rfl, by simp⟩
  | cons c s' ih =>
    obtain ⟨w, hw, hws⟩ := ih
    cases hr : rstrip s' with
    | nil =>
      have hs' : ∀ d ∈ s', isWS d = true := by
        intro d hd
        rw [hw, hr, List.nil_append] at hd
        exact hws d hd
      cases hc : isWS c with
      | true =>
        refine ⟨c :: s', ?_, ?_⟩
        · rw [rstrip_cons_all_ws hc hr, List.nil_append]
        · intro d hd
          rcases List.mem_cons.mp hd with h | h
          · subst h; exact hc
          · exact hs' d h
      | false =>
        refine ⟨s', ?_, hs'⟩
        rw [rstrip_cons, hr]
        simp [hc]
    | cons a r =>
      refine ⟨w, ?_, hws⟩
      have heq : rstrip (c :: s') = c :: rstrip s' :=
        rstrip_cons_of_ne (by rw [hr]; simp) c
      rw [heq, List.cons_append, ← hw]

theorem rstrip_sublist (s : Str) : List.Sublist (rstrip s) s := by
  induction s with
  | nil => simp [rstrip_nil]
  | cons c s' ih =>
    rw [rstrip_cons]
    cases hr : rstrip s' with
    | nil =>
      cases isWS c <;> simp
    | cons a r =>
      rw [hr] at ih
      exact List.Sublist.cons₂ c ih

theorem lstrip_ws_append {w : Str} (h : ∀ c ∈ w, isWS c = true) (x : Str) :
    lstrip (w ++ x) = lstrip x := by
  induction w with
  | nil => rfl
  | cons c w' ih =>
    have hc := h c (List.mem_cons_self _ _)
    show lstrip (c :: (w' ++ x)) = lstrip x
    rw [lstrip_cons, hc, if_pos rfl]
    exact ih (fun d hd => h d (List.mem_cons_of_mem _ hd))

theorem lstrip_decomp (s : Str) :
    ∃ w, s = w ++ lstrip s ∧ ∀ c ∈ w, isWS c = true := by
  refine ⟨s.takeWhile isWS, (List.takeWhile_append_dropWhile isWS s).symm, ?_⟩
  intro c hc
  exact List.mem_takeWhile_imp hc

theorem lstrip_sublist (s : Str) : List.Sublist (lstrip s) s :=
  List.dropWhile_sublist _

theorem rstrip_ws_append {w : Str} (hw : ∀ c ∈ w, isWS c = true) (a : Str) :
    rstrip (a ++ w) = rstrip a := by
  induction a with
  | nil => simpa using rstrip_of_all_ws hw
  | cons c a' ih =>
    show rstrip (c :: (a' ++ w)) = rstrip (c :: a')
    rw [rstrip_cons, rstrip_cons, ih]

theorem lstrip_rstrip_comm (s : Str) : lstrip (rstrip s) = rstrip (lstrip s) := by
  induction s with
  | nil => rfl
  | cons c s' ih =>
    cases hc : isWS c with
    | false =>
      rw [rstrip_cons_nonws hc, lstrip_cons, hc, lstrip_cons, hc]
      simp only [if_false, Bool.false_eq_true]
      rw [rstrip_cons_nonws hc]
    | true =>
      have hls : lstrip (c :: s') = lstrip s' := by
        rw [lstrip_cons, hc, if_pos rfl]
      cases hr : rstrip s' with
      | nil =>
        rw [rstrip_cons_all_ws hc hr, hls, lstrip_nil, ← ih, hr, lstrip_nil]
      | cons a r =>
        have heq : rstrip (c :: s') = c :: rstrip s' :=
          rstrip_cons_of_ne (by rw [hr]; simp) c
        rw [heq, hls, ← ih, lstrip_cons, hc, if_pos rfl]

theorem trim_ws_of_all_ws {w : Str} (h : ∀ c ∈ w, isWS c = true) : trim w = [] := by
  unfold trim
  rw [rstrip_of_all_ws h]
  rfl

theorem trim_append_ws {w : Str} (hw : ∀ c ∈ w, isWS c = true) (a : Str) :
    trim (a ++ w) = trim a := by
  unfold trim
  rw [rstrip_ws_append hw]

theorem trim_ws_append {w : Str} (hw : ∀ c ∈ w, isWS c = true) (a : Str) :
    trim (w ++ a) = trim a := by
  unfold trim
  rw [lstrip_rstrip_comm, lstrip_rstrip_comm, lstrip_ws_append hw]

theorem trim_rstrip (s : Str) : trim (rstrip s) = trim s := by
  obtain ⟨w, hw, hws⟩ := rstrip_decomp s
  conv_rhs => rw [hw]
  rw [trim_append_ws hws]

theorem trim_lstrip (s : Str) : trim (lstrip s) = trim s := by
  obtain ⟨w, hw, hws⟩ := lstrip_decomp s
  conv_rhs => rw [hw]
  rw [trim_ws_append hws]

theorem mem_of_mem_trim {c : Char} {s : Str} (h : c ∈ trim s) : c ∈ s := by
  unfold trim at h
  exact (rstrip_sublist s).subset ((lstrip_sublist (rstrip s)).subset h)

/-! Lemmas about splitSep and joinSep. -/

theorem splitSep_nil : splitSep [] = [[]] := rfl

theorem splitSep_cons_sep (s : Str) : splitSep (sep :: s) = [] :: splitSep s := by
  simp [splitSep]

theorem splitSep_cons_ne {c : Char} (h : c ≠ sep) (s : Str) :
    splitSep (c :: s) = match splitSep s with
      | [] => [[c]]
      | piece :: more => (c :: piece) :: more := by
  simp [splitSep, h]

theorem splitSep_ne_nil (s : Str) : splitSep s ≠ [] := by
  induction s with
  | nil => simp [splitSep_nil]
  | cons c s' ih =>
    by_cases hc : c = sep
    · subst hc; simp [splitSep_cons_sep]
    · rw [splitSep_cons_ne hc]
      cases splitSep s' with
      | nil => simp
      | cons a r => simp

theorem splitSep_append_sep (a b : Str) :
    splitSep (a ++ sep :: b) = splitSep a ++ splitSep b := by
  induction a with
  | nil => simp [splitSep_cons_sep, splitSep_nil]
  | cons c a' ih =>
    by_cases hc : c = sep
    · subst hc
      show splitSep (sep :: (a' ++ sep :: b)) = splitSep (sep :: a') ++ splitSep b
      rw [splitSep_cons_sep, splitSep_cons_sep, ih]
      rfl
    · show splitSep (c :: (a' ++ sep :: b)) = splitSep (c :: a') ++ splitSep b
      rw [splitSep_cons_ne hc, splitSep_cons_ne hc, ih]
      cases hs : splitSep a' with
      | nil => exact absurd hs (splitSep_ne_nil a')
      | cons p m => rfl

theorem splitSep_no_sep {s : Str} (h : sep ∉ s) : splitSep s = [s] := by
  induction s with
  | nil => rfl
  | cons c s' ih =>
    have hc : c ≠ sep := fun he => h (he ▸ List.mem_cons_self _ _)
    rw [splitSep_cons_ne hc, ih (fun hm => h (List.mem_cons_of_mem _ hm))]

theorem sep_not_mem_of_mem_splitSep {s piece : Str} (h : piece ∈ splitSep s) :
    sep ∉ piece := by
  induction s generalizing piece with
  | nil =>
    rw [splitSep_nil] at h
    simp at h
    subst h; simp
  | cons c s' ih =>
    by_cases hc : c = sep
    · subst hc
      rw [splitSep_cons_sep] at h
      rcases List.mem_cons.mp h with h | h
      · subst h; simp
      · exact ih h
    · rw [splitSep_cons_ne hc] at h
      cases hs : splitSep s' with
      | nil => exact absurd hs (splitSep_ne_nil s')
      | cons p m =>
        rw [hs] at h
        rcases List.mem_cons.mp h with h | h
        · subst h
          intro hm
          rcases List.mem_cons.mp hm with h | h
          · exact hc h.symm
          · exact ih (hs ▸ List.mem_cons_self p m) h
        · exact ih (hs ▸ List.mem_cons_of_mem p h)

theorem splitSep_length (s : Str) : (splitSep s).length = s.count sep + 1 := by
  induction s with
  | nil => simp [splitSep_nil]
  | cons c s' ih =>
    by_cases hc : c = sep
    · subst hc
      rw [splitSep_cons_sep]
      simp [ih, List.count_cons]
    · rw [splitSep_cons_ne hc]
      cases hs : splitSep s' with
      | nil => exact absurd hs (splitSep_ne_nil s')
      | cons p m =>
        rw [hs] at ih
        simp at ih
        simp [List.count_cons, hc, ih]

theorem joinSep_cons (c : Char) (v : Str) {rest : List Str} (h : rest ≠ []) :
    joinSep c (v :: rest) = v ++ c :: joinSep c rest := by
  cases rest with
  | nil => exact absurd rfl h
  | cons w r => rfl

theorem joinSep_splitSep (s : Str) : joinSep sep (splitSep s) = s := by
  induction s with
  | nil => rfl
  | cons c s' ih =>
    by_cases hc : c = sep
    · subst hc
      rw [splitSep_cons_sep, joinSep_cons sep [] (splitSep_ne_nil s'), ih]
      rfl
    · rw [splitSep_cons_ne hc]
      cases hs : splitSep s' with
      | nil => exact absurd hs (splitSep_ne_nil s')
      | cons p m =>
        rw [hs] at ih
        cases m with
        | nil =>
          show joinSep sep [c :: p] = c :: s'
          simp only [joinSep]
          rw [← ih]
          rfl
        | cons q m' =>
          rw [joinSep_cons sep (c :: p) (by simp)]
          rw [joinSep_cons sep p (by simp)] at ih
          rw [List.cons_append, ih]

/-! Lemmas about trimmedSplit. -/

theorem trimmedSplit_nil : trimmedSplit [] = [[]] := rfl

theorem trimmedSplit_ne_nil (s : Str) : trimmedSplit s ≠ [] := by
  unfold trimmedSplit
  simp [splitSep_ne_nil s]

theorem trimmedSplit_append_sep (a b : Str) :
    trimmedSplit (a ++ sep :: b) = trimmedSplit a ++ trimmedSplit b := by
  unfold trimmedSplit
  rw [splitSep_append_sep, List.map_append]

theorem modLast_map_trim {w : Str} (hw : ∀ c ∈ w, isWS c = true) (l : List Str) :
    (modLast (· ++ w) l).map trim = l.map trim := by
  induction l with
  | nil => rfl
  | cons a rest ih =>
    cases rest with
    | nil => simp [modLast, trim_append_ws hw]
    | cons b r =>
      show (a :: modLast (· ++ w) (b :: r)).map trim = (a :: b :: r).map trim
      simp only [List.map_cons]
      rw [show (modLast (· ++ w) (b :: r)).map trim = (b :: r).map trim from ih]
      rfl

theorem splitSep_append_no_sep {w : Str} (hw : sep ∉ w) (x : Str) :
    splitSep (x ++ w) = modLast (· ++ w) (splitSep x) := by
  induction x with
  | nil =>
    rw [List.nil_append, splitSep_no_sep hw, splitSep_nil]
    rfl
  | cons c x' ih =>
    by_cases hc : c = sep
    · subst hc
      show splitSep (sep :: (x' ++ w)) = modLast (· ++ w) (splitSep (sep :: x'))
      rw [splitSep_cons_sep, splitSep_cons_sep, ih]
      cases hs : splitSep x' with
      | nil => exact absurd hs (splitSep_ne_nil x')
      | cons p m => rfl
    · show splitSep (c :: (x' ++ w)) = modLast (· ++ w) (splitSep (c :: x'))
      rw [splitSep_cons_ne hc, splitSep_cons_ne hc, ih]
      cases hs : splitSep x' with
      | nil => exact absurd hs (splitSep_ne_nil x')
      | cons p m =>
        cases m with
        | nil => rfl
        | cons q m' => rfl

theorem trimmedSplit_append_ws {w : Str} (hw : ∀ c ∈ w, isWS c = true) (x : Str) :
    trimmedSplit (x ++ w) = trimmedSplit x := by
  have hsep : sep ∉ w := fun hm => by
    have := hw sep hm
    rw [isWS_sep] at this
    exact Bool.false_ne_true this
  unfold trimmedSplit
  rw [splitSep_append_no_sep hsep, modLast_map_trim hw]

theorem splitSep_ws_append {w : Str} (hw : sep ∉ w) (x : Str) :
    splitSep (w ++ x) = modFirst (w ++ ·) (splitSep x) := by
  induction w with
  | nil =>
    cases hs : splitSep x with
    | nil => exact absurd hs (splitSep_ne_nil x)
    | cons p m => simp [modFirst, hs]
  | cons c w' ih =>
    have hc : c ≠ sep := fun he => hw (he ▸ List.mem_cons_self _ _)
    show splitSep (c :: (w' ++ x)) = modFirst ((c :: w') ++ ·) (splitSep x)
    rw [splitSep_cons_ne hc, ih (fun hm => hw (List.mem_cons_of_mem _ hm))]
    cases hs : splitSep x with
    | nil => exact absurd hs (splitSep_ne_nil x)
    | cons p m => rfl

theorem trimmedSplit_ws_append {w : Str} (hw : ∀ c ∈ w, isWS c = true) (x : Str) :
    trimmedSplit (w ++ x) = trimmedSplit x := by
  have hsep : sep ∉ w := fun hm => by
    have := hw sep hm
    rw [isWS_sep] at this
    exact Bool.false_ne_true this
  unfold trimmedSplit
  rw [splitSep_ws_append hsep]
  cases hs : splitSep x with
  | nil => exact absurd hs (splitSep_ne_nil x)
  | cons p m =>
    simp [modFirst, trim_ws_append hw]

theorem trimmedSplit_rstrip (v : Str) : trimmedSplit (rstrip v) = trimmedSplit v := by
  obtain ⟨w, hw, hws⟩ := rstrip_decomp v
  conv_rhs => rw [hw]
  rw [trimmedSplit_append_ws hws]

theorem trimmedSplit_join (vs : List Str) (h : vs ≠ []) :
    trimmedSplit (joinSep sep vs) = vs.flatMap trimmedSplit := by
  induction vs with
  | nil => exact absurd rfl h
  | cons v rest ih =>
    cases rest with
    | nil => simp [joinSep, List.flatMap]
    | cons w r =>
      rw [joinSep_cons sep v (by simp), trimmedSplit_append_sep, ih (by simp)]
      simp [List.flatMap]

/-! Lemmas about pipeGo and pipeReplace. -/

theorem pipeGo_nil (sk : Bool) (pend : Str) : pipeGo sk pend [] = pend := rfl

theorem pipeGo_pipe (sk : Bool) (pend : Str) (rest : Str) :
    pipeGo sk pend ('|' :: rest) = sep :: pipeGo true [] rest := by
  simp [pipeGo]

theorem pipeGo_ws_skip {c : Char} (hc : isWS c = true) (hp : c ≠ '|')
    (pend rest : Str) : pipeGo true pend (c :: rest) = pipeGo true [] rest := by
  simp [pipeGo, hp, hc]

theorem pipeGo_ws_norm {c : Char} (hc : isWS c = true) (hp : c ≠ '|')
    (pend rest : Str) :
    pipeGo false pend (c :: rest) = pipeGo false (pend ++ [c]) rest := by
  simp [pipeGo, hp, hc]

theorem pipeGo_other {c : Char} (hc : isWS c = false) (hp : c ≠ '|')
    (sk : Bool) (pend rest : Str) :
    pipeGo sk pend (c :: rest) = pend ++ c :: pipeGo false [] rest := by
  simp [pipeGo, hp, hc]

theorem pipeGo_no_pipe {s : Str} (h : '|' ∉ s) :
    ∀ pend, pipeGo false pend s = pend ++ s := by
  induction s with
  | nil => intro pend; simp [pipeGo_nil]
  | cons c rest ih =>
    intro pend
    have hp : c ≠ '|' := fun he => h (he ▸ List.mem_cons_self _ _)
    have hrest : '|' ∉ rest := fun hm => h (List.mem_cons_of_mem _ hm)
    cases hc : isWS c with
    | true =>
      rw [pipeGo_ws_norm hc hp, ih hrest, List.append_assoc]
      rfl
    | false =>
      rw [pipeGo_other hc hp, ih hrest]
      rfl

theorem pipeReplace_no_pipe {s : Str} (h : '|' ∉ s) : pipeReplace s = s := by
  unfold pipeReplace
  rw [pipeGo_no_pipe h []]
  rfl

theorem pipeGo_pipe_boundary (a : Str) :
    ∀ (sk : Bool) (pend b : Str),
      pipeGo sk pend (a ++ '|' :: b) = pipeGo sk pend (a ++ ['|']) ++ pipeGo true [] b := by
  induction a with
  | nil =>
    intro sk pend b
    rw [List.nil_append, List.nil_append, pipeGo_pipe, pipeGo_pipe, pipeGo_nil]
    rfl
  | cons c a' ih =>
    intro sk pend b
    by_cases hp : c = '|'
    · subst hp
      show pipeGo sk pend ('|' :: (a' ++ '|' :: b)) = pipeGo sk pend ('|' :: (a' ++ ['|'])) ++ _
      rw [pipeGo_pipe, pipeGo_pipe, ih]
      rfl
    · cases hc : isWS c with
      | true =>
        cases sk with
        | true =>
          show pipeGo true pend (c :: (a' ++ '|' :: b)) = pipeGo true pend (c :: (a' ++ ['|'])) ++ _
          rw [pipeGo_ws_skip hc hp, pipeGo_ws_skip hc hp, ih]
        | false =>
          show pipeGo false pend (c :: (a' ++ '|' :: b)) = pipeGo false pend (c :: (a' ++ ['|'])) ++ _
          rw [pipeGo_ws_norm hc hp, pipeGo_ws_norm hc hp, ih]
      | false =>
        show pipeGo sk pend (c :: (a' ++ '|' :: b)) = pipeGo sk pend (c :: (a' ++ ['|'])) ++ _
        rw [pipeGo_other hc hp, pipeGo_other hc hp, ih]
        simp

theorem pipeGo_sep_boundary (a : Str) :
    ∀ (sk : Bool) (pend b : Str),
      pipeGo sk pend (a ++ sep :: b) = pipeGo sk pend (a ++ [sep]) ++ pipeGo false [] b := by
  induction a with
  | nil =>
    intro sk pend b
    rw [List.nil_append, List.nil_append, pipeGo_other isWS_sep sep_ne_pipe,
      pipeGo_other isWS_sep sep_ne_pipe, pipeGo_nil]
    simp
  | cons c a' ih =>
    intro sk pend b
    by_cases hp : c = '|'
    · subst hp
      show pipeGo sk pend ('|' :: (a' ++ sep :: b)) = pipeGo sk pend ('|' :: (a' ++ [sep])) ++ _
      rw [pipeGo_pipe, pipeGo_pipe, ih]
      rfl
    · cases hc : isWS c with
      | true =>
        cases sk with
        | true =>
          show pipeGo true pend (c :: (a' ++ sep :: b)) = pipeGo true pend (c :: (a' ++ [sep])) ++ _
          rw [pipeGo_ws_skip hc hp, pipeGo_ws_skip hc hp, ih]
        | false =>
          show pipeGo false pend (c :: (a' ++ sep :: b)) = pipeGo false pend (c :: (a' ++ [sep])) ++ _
          rw [pipeGo_ws_norm hc hp, pipeGo_ws_norm hc hp, ih]
      | false =>
        show pipeGo sk pend (c :: (a' ++ sep :: b)) = pipeGo sk pend (c :: (a' ++ [sep])) ++ _
        rw [pipeGo_other hc hp, pipeGo_other hc hp, ih]
        simp

theorem pipeGo_trailing_pipe (a : Str) :
    ∀ (sk : Bool) (pend : Str), (∀ c ∈ pend, isWS c = true) →
      pipeGo sk pend (a ++ ['|']) = rstrip (pipeGo sk pend a) ++ [sep] := by
  induction a with
  | nil =>
    intro sk pend hpend
    rw [List.nil_append, pipeGo_pipe, pipeGo_nil, pipeGo_nil, rstrip_of_all_ws hpend]
    rfl
  | cons c a' ih =>
    intro sk pend hpend
    by_cases hp : c = '|'
    · subst hp
      show pipeGo sk pend ('|' :: (a' ++ ['|'])) = rstrip (pipeGo sk pend ('|' :: a')) ++ [sep]
      rw [pipeGo_pipe, pipeGo_pipe, ih true [] (by simp)]
      rw [rstrip_cons_nonws isWS_sep]
      rfl
    · cases hc : isWS c with
      | true =>
        cases sk with
        | true =>
          show pipeGo true pend (c :: (a' ++ ['|'])) = rstrip (pipeGo true pend (c :: a')) ++ [sep]
          rw [pipeGo_ws_skip hc hp, pipeGo_ws_skip hc hp, ih true [] (by simp)]
        | false =>
          show pipeGo false pend (c :: (a' ++ ['|'])) = rstrip (pipeGo false pend (c :: a')) ++ [sep]
          have hpc : ∀ d ∈ pend ++ [c], isWS d = true := by
            intro d hd
            rcases List.mem_append.mp hd with h | h
            · exact hpend d h
            · rw [List.mem_singleton.mp h]; exact hc
          rw [pipeGo_ws_norm hc hp, pipeGo_ws_norm hc hp, ih false (pend ++ [c]) hpc]
      | false =>
        show pipeGo sk pend (c :: (a' ++ ['|'])) = rstrip (pipeGo sk pend (c :: a')) ++ [sep]
        rw [pipeGo_other hc hp, pipeGo_other hc hp, ih false [] (by simp),
          rstrip_append_nonws hc]
        simp

theorem pipeGo_skip_eq_lstrip (s : Str) :
    pipeGo true [] s = pipeGo false [] (lstrip s) := by
  induction s with
  | nil => rfl
  | cons c rest ih =>
    by_cases hp : c = '|'
    · subst hp
      rw [pipeGo_pipe, lstrip_cons, isWS_pipe]
      simp only [Bool.false_eq_true, if_false]
      rw [pipeGo_pipe]
    · cases hc : isWS c with
      | true =>
        rw [pipeGo_ws_skip hc hp, lstrip_cons, hc, if_pos rfl, ih]
      | false =>
        rw [pipeGo_other hc hp, lstrip_cons, hc]
        simp only [Bool.false_eq_true, if_false]
        rw [pipeGo_other hc hp]

theorem pipeGo_ws_lead {w : Str} (hw : ∀ c ∈ w, isWS c = true) :
    ∀ (pend y : Str), pipeGo false pend (w ++ y) = pipeGo false (pend ++ w) y := by
  induction w with
  | nil => intro pend y; simp
  | cons c w' ih =>
    intro pend y
    have hc := hw c (List.mem_cons_self _ _)
    have hp : c ≠ '|' := fun he => by
      rw [he, isWS_pipe] at hc
      exact Bool.false_ne_true hc
    show pipeGo false pend (c :: (w' ++ y)) = pipeGo false (pend ++ c :: w') y
    rw [pipeGo_ws_norm hc hp, ih (fun d hd => hw d (List.mem_cons_of_mem _ hd)),
      List.append_assoc]
    rfl

theorem trimmedSplit_pipeGo_pending (y : Str) :
    ∀ (p₁ p₂ : Str), (∀ c ∈ p₁, isWS c = true) → (∀ c ∈ p₂, isWS c = true) →
      trimmedSplit (pipeGo false p₁ y) = trimmedSplit (pipeGo false p₂ y) := by
  induction y with
  | nil =>
    intro p₁ p₂ h₁ h₂
    have hs₁ : sep ∉ p₁ := fun hm => by
      have := h₁ sep hm; rw [isWS_sep] at this; exact Bool.false_ne_true this
    have hs₂ : sep ∉ p₂ := fun hm => by
      have := h₂ sep hm; rw [isWS_sep] at this; exact Bool.false_ne_true this
    rw [pipeGo_nil, pipeGo_nil]
    unfold trimmedSplit
    rw [splitSep_no_sep hs₁, splitSep_no_sep hs₂]
    simp [trim_ws_of_all_ws h₁, trim_ws_of_all_ws h₂]
  | cons c rest ih =>
    intro p₁ p₂ h₁ h₂
    by_cases hp : c = '|'
    · subst hp
      rw [pipeGo_pipe, pipeGo_pipe]
    · cases hc : isWS c with
      | true =>
        have hpc₁ : ∀ d ∈ p₁ ++ [c], isWS d = true := by
          intro d hd
          rcases List.mem_append.mp hd with h | h
          · exact h₁ d h
          · rw [List.mem_singleton.mp h]; exact hc
        have hpc₂ : ∀ d ∈ p₂ ++ [c], isWS d = true := by
          intro d hd
          rcases List.mem_append.mp hd with h | h
          · exact h₂ d h
          · rw [List.mem_singleton.mp h]; exact hc
        rw [pipeGo_ws_norm hc hp, pipeGo_ws_norm hc hp]
        exact ih (p₁ ++ [c]) (p₂ ++ [c]) hpc₁ hpc₂
      | false =>
        rw [pipeGo_other hc hp, pipeGo_other hc hp,
          trimmedSplit_ws_append h₁, trimmedSplit_ws_append h₂]

theorem trimmedSplit_pipeReplace_lstrip (x : Str) :
    trimmedSplit (pipeReplace (lstrip x)) = trimmedSplit (pipeReplace x) := by
  obtain ⟨w, hx, hws⟩ := lstrip_decomp x
  conv_rhs => rw [hx]
  unfold pipeReplace
  rw [pipeGo_ws_lead hws [] (lstrip x), List.nil_append]
  exact trimmedSplit_pipeGo_pending (lstrip x) [] w (by simp) hws

theorem trimmedSplit_pipeGo_skip (x : Str) :
    trimmedSplit (pipeGo true [] x) = trimmedSplit (pipeReplace x) := by
  rw [pipeGo_skip_eq_lstrip]
  exact trimmedSplit_pipeReplace_lstrip x

theorem pipe_not_mem_pipeGo (s : Str) :
    ∀ (sk : Bool) (pend : Str), '|' ∉ pend → '|' ∉ pipeGo sk pend s := by
  induction s with
  | nil => intro sk pend h; rw [pipeGo_nil]; exact h
  | cons c rest ih =>
    intro sk pend h
    by_cases hp : c = '|'
    · subst hp
      rw [pipeGo_pipe]
      intro hm
      rcases List.mem_cons.mp hm with hm | hm
      · exact sep_ne_pipe hm.symm
      · exact ih true [] (by simp) hm
    · cases hc : isWS c with
      | true =>
        cases sk with
        | true =>
          rw [pipeGo_ws_skip hc hp]
          exact ih true [] (by simp)
        | false =>
          rw [pipeGo_ws_norm hc hp]
          refine ih false (pend ++ [c]) ?_
          intro hm
          rcases List.mem_append.mp hm with hm | hm
          · exact h hm
          · exact hp (List.mem_singleton.mp hm).symm
      | false =>
        rw [pipeGo_other hc hp]
        intro hm
        rcases List.mem_append.mp hm with hm | hm
        · exact h hm
        · rcases List.mem_cons.mp hm with hm | hm
          · exact hp hm.symm
          · exact ih false [] (by simp) hm

theorem sep_mem_pipeGo_of_pipe {s : Str} (h : '|' ∈ s) :
    ∀ (sk : Bool) (pend : Str), sep ∈ pipeGo sk pend s := by
  induction s with
  | nil => simp at h
  | cons c rest ih =>
    intro sk pend
    by_cases hp : c = '|'
    · subst hp
      rw [pipeGo_pipe]
      exact List.mem_cons_self _ _
    · have hrest : '|' ∈ rest := by
        rcases List.mem_cons.mp h with hm | hm
        · exact absurd hm.symm hp
        · exact hm
      cases hc : isWS c with
      | true =>
        cases sk with
        | true =>
          rw [pipeGo_ws_skip hc hp]
          exact ih hrest true []
        | false =>
          rw [pipeGo_ws_norm hc hp]
          exact ih hrest false (pend ++ [c])
      | false =>
        rw [pipeGo_other hc hp]
        refine List.mem_append.mpr (Or.inr ?_)
        exact List.mem_cons_of_mem _ (ih hrest false [])

theorem sep_mem_pipeGo_of_sep {s : Str} (h : sep ∈ s) :
    ∀ (sk : Bool) (pend : Str), sep ∈ pipeGo sk pend s := by
  induction s with
  | nil => simp at h
  | cons c rest ih =>
    intro sk pend
    by_cases hp : c = '|'
    · rw [hp, pipeGo_pipe]
      exact List.mem_cons_self _ _
    · rcases List.mem_cons.mp h with hm | hm
      · subst hm
        rw [pipeGo_other isWS_sep hp]
        exact List.mem_append.mpr (Or.inr (List.mem_cons_self _ _))
      · cases hc : isWS c with
        | true =>
          cases sk with
          | true =>
            rw [pipeGo_ws_skip hc hp]
            exact ih hm true []
          | false =>
            rw [pipeGo_ws_norm hc hp]
            exact ih hm false (pend ++ [c])
        | false =>
          rw [pipeGo_other hc hp]
          exact List.mem_append.mpr (Or.inr (List.mem_cons_of_mem _ (ih hm false [])))

theorem pipeReplace_ne_of_pipe {s : Str} (h : '|' ∈ s) : pipeReplace s ≠ s := by
  intro he
  refine pipe_not_mem_pipeGo s false [] (by simp) ?_
  rw [show pipeGo false [] s = pipeReplace s from rfl, he]
  exact h

theorem lstrip_append (a b : Str) :
    lstrip (a ++ b) = if lstrip a = [] then lstrip b else lstrip a ++ b := by
  induction a with
  | nil => simp [lstrip_nil]
  | cons c a' ih =>
    show lstrip (c :: (a' ++ b)) = _
    cases hc : isWS c with
    | true =>
      rw [lstrip_cons, hc, if_pos rfl, ih, lstrip_cons, hc, if_pos rfl]
    | false =>
      rw [lstrip_cons, hc, lstrip_cons, hc]
      simp

theorem lstrip_joinSep_pipe (w : Str) (rest : List Str) :
    lstrip (joinSep '|' (w :: rest)) = joinSep '|' (lstrip w :: rest) := by
  cases rest with
  | nil => rfl
  | cons x r =>
    rw [joinSep_cons '|' w (by simp), joinSep_cons '|' (lstrip w) (by simp), lstrip_append]
    by_cases hw : lstrip w = []
    · rw [if_pos hw, hw, lstrip_cons, isWS_pipe, List.nil_append]
      simp
    · rw [if_neg hw]

theorem trimmedSplit_pipeReplace_join :
    (ps : List Str) → ps ≠ [] →
      trimmedSplit (pipeReplace (joinSep '|' ps)) =
        ps.flatMap (fun v => trimmedSplit (pipeReplace v))
  | [], h => absurd rfl h
  | [v], _ => by simp [joinSep, List.flatMap]
  | v :: w :: rest, _ => by
    have hrec := trimmedSplit_pipeReplace_join (lstrip w :: rest) (by simp)
    rw [joinSep_cons '|' v (by simp)]
    unfold pipeReplace
    rw [pipeGo_pipe_boundary v false [] (joinSep '|' (w :: rest)),
      pipeGo_trailing_pipe v false [] (by simp)]
    have hsplit : (rstrip (pipeGo false [] v) ++ [sep]) ++ pipeGo true [] (joinSep '|' (w :: rest)) =
        rstrip (pipeGo false [] v) ++ sep :: pipeGo true [] (joinSep '|' (w :: rest)) := by
      simp
    rw [hsplit, trimmedSplit_append_sep]
    have h1 : trimmedSplit (rstrip (pipeGo false [] v)) =
        trimmedSplit (pipeReplace v) := trimmedSplit_rstrip _
    have h2 : trimmedSplit (pipeGo true [] (joinSep '|' (w :: rest))) =
        trimmedSplit (pipeReplace w) ++
          rest.flatMap (fun v => trimmedSplit (pipeReplace v)) := by
      rw [pipeGo_skip_eq_lstrip, lstrip_joinSep_pipe]
      rw [show pipeGo false [] (joinSep '|' (lstrip w :: rest)) =
        pipeReplace (joinSep '|' (lstrip w :: rest)) from rfl]
      rw [hrec, List.flatMap_cons, trimmedSplit_pipeReplace_lstrip]
    rw [h1, h2]
    simp [List.flatMap_cons, pipeReplace]
termination_by ps _ => ps.length

/-! Lemmas about mapGet. -/

theorem mapGet_nil {α : Type} (k : Str) : mapGet ([] : List (Str × α)) k = none := rfl

theorem mapGet_cons {α : Type} (k' : Str) (v : α) (rest : List (Str × α)) (k : Str) :
    mapGet ((k', v) :: rest) k = match mapGet rest k with
      | some r => some r
      | none => if k = k' then some v else none := rfl

theorem mapGet_singleton {α : Type} (k' : Str) (v : α) (k : Str) :
    mapGet [(k', v)] k = if k = k' then some v else none := rfl

theorem mapGet_append {α : Type} (xs ys : List (Str × α)) (k : Str) :
    mapGet (xs ++ ys) k = match mapGet ys k with
      | some r => some r
      | none => mapGet xs k := by
  induction xs with
  | nil =>
    cases h : mapGet ys k <;> simp [mapGet_nil, h]
  | cons p xs' ih =>
    obtain ⟨k', v⟩ := p
    show mapGet ((k', v) :: (xs' ++ ys)) k = _
    rw [mapGet_cons, ih, mapGet_cons]
    cases mapGet ys k with
    | some r => rfl
    | none => rfl

theorem mapGet_eq_none {α : Type} {bs : List (Str × α)} {q : Str}
    (h : ∀ kv ∈ bs, kv.1 ≠ q) : mapGet bs q = none := by
  induction bs with
  | nil => rfl
  | cons p rest ih =>
    obtain ⟨k', v⟩ := p
    rw [mapGet_cons, ih (fun kv hm => h kv (List.mem_cons_of_mem _ hm))]
    have : q ≠ k' := fun he => h (k', v) (List.mem_cons_self _ _) he.symm
    simp [this]

/-! Lemmas about interpolation with no params. -/

theorem interpolate_none (s : Str) : interpolate s none = s := rfl

theorem optionMap_interpolate_none (r : Option Str) :
    r.map (fun s => interpolate s none) = r := by
  cases r <;> rfl

/-! Lemmas about the singleton-chain configurations. -/

theorem dotJoin_cons (k : Str) {p : List Str} (h : p ≠ []) :
    dotJoin (k :: p) = k ++ '.' :: dotJoin p := joinSep_cons '.' k h

theorem flattenValue_chainM (p : List Str) :
    ∀ (K : Str) (leaf : Msg), K ≠ [] →
      flattenValue K (chainM p leaf) =
        flattenValue (if p = [] then K else K ++ '.' :: dotJoin p) leaf := by
  induction p with
  | nil => intro K leaf _; simp [chainM]
  | cons k ks ih =>
    intro K leaf hK
    have h1 : flattenValue K (chainM (k :: ks) leaf) =
        flattenValue (mkKey K k) (chainM ks leaf) ++ [] := rfl
    have hmk : mkKey K k = K ++ '.' :: k := by simp [mkKey, hK]
    rw [h1, List.append_nil, ih (mkKey K k) leaf (by rw [hmk]; simp)]
    cases ks with
    | nil =>
      rw [if_pos rfl, if_neg (by simp : ¬(k :: ([] : List Str)) = []), hmk]
      rfl
    | cons k2 ks2 =>
      rw [if_neg (by simp : ¬(k2 :: ks2) = []), if_neg (by simp : ¬(k :: k2 :: ks2) = []),
        hmk, dotJoin_cons k (by simp : (k2 :: ks2) ≠ []), List.append_assoc]
      rfl

theorem translationMap_mkCfg (L : Str) (p : List Str) (leaf : Msg)
    (mw : Option Bool) (rules : List (Str × PluralRule))
    (hL : L ≠ []) (hp : p ≠ []) :
    translationMap (mkCfg L p leaf mw rules) =
      flattenValue (L ++ '.' :: dotJoin p) leaf := by
  show flattenMessages (.cons L (chainM p leaf) .nil) [] = _
  have h1 : flattenMessages (.cons L (chainM p leaf) .nil) [] =
      flattenValue (mkKey [] L) (chainM p leaf) ++ [] := rfl
  rw [h1, List.append_nil]
  have hmk : mkKey [] L = L := by simp [mkKey]
  rw [hmk, flattenValue_chainM p L leaf hL, if_neg hp]

/-! The separator character passes through pipeReplace as a plain
character, so the replacement distributes over separator occurrences. -/

theorem pipeGo_sep_distrib (a : Str) :
    ∀ (sk : Bool) (pend b : Str),
      pipeGo sk pend (a ++ sep :: b) = pipeGo sk pend a ++ sep :: pipeGo false [] b := by
  induction a with
  | nil =>
    intro sk pend b
    rw [List.nil_append, pipeGo_other isWS_sep sep_ne_pipe, pipeGo_nil]
  | cons c a' ih =>
    intro sk pend b
    by_cases hp : c = '|'
    · subst hp
      show pipeGo sk pend ('|' :: (a' ++ sep :: b)) = pipeGo sk pend ('|' :: a') ++ _
      rw [pipeGo_pipe, pipeGo_pipe, ih]
      rfl
    · cases hc : isWS c with
      | true =>
        cases sk with
        | true =>
          show pipeGo true pend (c :: (a' ++ sep :: b)) = pipeGo true pend (c :: a') ++ _
          rw [pipeGo_ws_skip hc hp, pipeGo_ws_skip hc hp, ih]
        | false =>
          show pipeGo false pend (c :: (a' ++ sep :: b)) = pipeGo false pend (c :: a') ++ _
          rw [pipeGo_ws_norm hc hp, pipeGo_ws_norm hc hp, ih]
      | false =>
        show pipeGo sk pend (c :: (a' ++ sep :: b)) = pipeGo sk pend (c :: a') ++ _
        rw [pipeGo_other hc hp, pipeGo_other hc hp, ih]
        simp

theorem pipeReplace_joinSep_sep :
    (ps : List Str) → ps ≠ [] →
      pipeReplace (joinSep sep ps) = joinSep sep (ps.map pipeReplace)
  | [], h => absurd rfl h
  | [v], _ => by simp [joinSep]
  | v :: w :: rest, _ => by
    have hd : pipeReplace (v ++ sep :: joinSep sep (w :: rest)) =
        pipeReplace v ++ sep :: pipeReplace (joinSep sep (w :: rest)) :=
      pipeGo_sep_distrib v false [] (joinSep sep (w :: rest))
    rw [joinSep_cons sep v (by simp), hd, pipeReplace_joinSep_sep (w :: rest) (by simp),
      show List.map pipeReplace (v :: w :: rest) =
        pipeReplace v :: pipeReplace w :: List.map pipeReplace rest from rfl,
      joinSep_cons sep (pipeReplace v) (by simp)]
    rfl

/-! Lemmas about sepToPipe. -/

theorem sepToPipe_no_sep {v : Str} (h : sep ∉ v) : sepToPipe v = v := by
  unfold sepToPipe
  conv_rhs => rw [← List.map_id v]
  refine List.map_congr_left ?_
  intro c hc
  have : c ≠ sep := fun he => h (he ▸ hc)
  simp [this]

theorem sepToPipe_joinSep :
    (ps : List Str) → (∀ v ∈ ps, sep ∉ v) →
      sepToPipe (joinSep sep ps) = joinSep '|' ps
  | [], _ => rfl
  | [v], h => sepToPipe_no_sep (h v (List.mem_cons_self _ _))
  | v :: w :: rest, h => by
    rw [joinSep_cons sep v (by simp), joinSep_cons '|' v (by simp)]
    unfold sepToPipe
    rw [List.map_append]
    have h1 : (sep :: joinSep sep (w :: rest)).map (fun c => if c = sep then '|' else c) =
        '|' :: sepToPipe (joinSep sep (w :: rest)) := by
      simp [sepToPipe]
    rw [h1, sepToPipe_joinSep (w :: rest) (fun x hx => h x (List.mem_cons_of_mem _ hx))]
    have h2 : List.map (fun c => if c = sep then '|' else c) v = v :=
      sepToPipe_no_sep (h v (List.mem_cons_self _ _))
    rw [h2]

/-! Membership of the separator in joined values. -/

theorem sep_mem_joinSep_of_two (v w : Str) (r : List Str) :
    sep ∈ joinSep sep (v :: w :: r) := by
  rw [joinSep_cons sep v (by simp)]
  exact List.mem_append.mpr (Or.inr (List.mem_cons_self _ _))

theorem sep_not_mem_joinSep {vs : List Str} (h : sep ∉ joinSep sep vs) :
    vs = [] ∨ ∃ v, vs = [v] ∧ sep ∉ v := by
  cases vs with
  | nil => exact Or.inl rfl
  | cons v rest =>
    cases rest with
    | nil => exact Or.inr ⟨v, rfl, h⟩
    | cons w r => exact absurd (sep_mem_joinSep_of_two v w r) h

theorem sep_mem_iff_of_trimmedSplit_eq {x y : Str}
    (h : trimmedSplit x = trimmedSplit y) : sep ∈ x ↔ sep ∈ y := by
  have hx : (trimmedSplit x).length = x.count sep + 1 := by
    unfold trimmedSplit
    rw [List.length_map, splitSep_length]
  have hy : (trimmedSplit y).length = y.count sep + 1 := by
    unfold trimmedSplit
    rw [List.length_map, splitSep_length]
  have hc : x.count sep = y.count sep := by
    have := hx ▸ hy ▸ congrArg List.length h
    omega
  rw [← List.count_pos_iff, ← List.count_pos_iff, hc]

theorem sep_not_mem_of_mem_trimmedSplit {s v : Str} (h : v ∈ trimmedSplit s) :
    sep ∉ v := by
  unfold trimmedSplit at h
  obtain ⟨piece, hp, hv⟩ := List.mem_map.mp h
  intro hm
  exact sep_not_mem_of_mem_splitSep hp (mem_of_mem_trim (hv ▸ hm))

/-! Behaviour of the query engine on a configuration whose flattened
index is a single binding for the queried key. -/

theorem getTranslation_single {cfg : Config} {key val : Str}
    (htm : translationMap cfg = [(cfg.locale ++ '.' :: key, val)]) :
    getTranslation cfg key = (val, []) := by
  unfold getTranslation
  rw [htm, mapGet_singleton, if_pos rfl]

theorem formsGet_eq (cfg : Config) (k : Str) :
    formsGet cfg k = match mapGet (translationMap cfg) k with
      | some v => if sep ∈ v then some (trimmedSplit v) else none
      | none => none := rfl

theorem resolvedForms_single {cfg : Config} {key val : Str}
    (htm : translationMap cfg = [(cfg.locale ++ '.' :: key, val)])
    (hfb : cfg.fallbackLocale = cfg.locale) :
    resolvedForms cfg key = if sep ∈ val then some (trimmedSplit val) else none := by
  unfold resolvedForms
  rw [formsGet_eq, formsGet_eq, htm, hfb, mapGet_singleton, if_pos rfl]
  by_cases h : sep ∈ val
  · simp [h]
  · simp [h]

theorem applyPlural_single {cfg : Config} {key val : Str}
    (htm : translationMap cfg = [(cfg.locale ++ '.' :: key, val)])
    (hfb : cfg.fallbackLocale = cfg.locale) (count : Int) :
    applyPlural cfg key count =
      if sep ∈ val then
        (jsElem (trimmedSplit val)
          (min (resolvedRule cfg count.natAbs) (((trimmedSplit val).length : Int) - 1)), [])
      else (some val, []) := by
  unfold applyPlural
  rw [resolvedForms_single htm hfb]
  by_cases h : sep ∈ val
  · rw [if_pos h, if_pos h]
    have hne : (trimmedSplit val).length ≠ 0 :=
      fun h0 => trimmedSplit_ne_nil val (List.length_eq_zero.mp h0)
    simp [hne]
  · rw [if_neg h, if_neg h]
    simp [getTranslation_single htm]

theorem flatMap_congr {α β : Type} {l : List α} {f g : α → List β}
    (h : ∀ x ∈ l, f x = g x) : l.flatMap f = l.flatMap g := by
  induction l with
  | nil => rfl
  | cons a r ih =>
    simp [List.flatMap_cons, h a (List.mem_cons_self _ _),
      ih (fun x hx => h x (List.mem_cons_of_mem _ hx))]

/-- Core of claim C5: when no variant contains a pipe, the pipe-joined
string form and the separator-joined array form have the same trimmed
variant table entry. -/
theorem trimmedSplit_arr_pipe_eq {vs : List Str} (hpf : ∀ v ∈ vs, '|' ∉ v)
    (hne : vs ≠ []) :
    trimmedSplit (pipeReplace (joinSep '|' vs)) = trimmedSplit (joinSep sep vs) := by
  rw [trimmedSplit_pipeReplace_join vs hne, trimmedSplit_join vs hne]
  exact flatMap_congr (fun v hv => by rw [pipeReplace_no_pipe (hpf v hv)])

theorem val_eq_of_no_sep {vs : List Str} (hpf : ∀ v ∈ vs, '|' ∉ v)
    (h : sep ∉ joinSep sep vs) :
    pipeReplace (joinSep '|' vs) = joinSep sep vs := by
  rcases sep_not_mem_joinSep h with hv | ⟨v, hv, _⟩
  · subst hv; rfl
  · subst hv
    show pipeReplace v = v
    exact pipeReplace_no_pipe (hpf v (List.mem_cons_self _ _))

theorem applyPlural_C5 (L : Str) (p : List Str) (vs : List Str) (mw : Option Bool)
    (rules : List (Str × PluralRule)) (hL : L ≠ []) (hp : p ≠ [])
    (hpf : ∀ v ∈ vs, '|' ∉ v) (count : Int) :
    applyPlural (mkCfg L p (.arr vs) mw rules) (dotJoin p) count =
      applyPlural (mkCfg L p (.str (joinSep '|' vs)) mw rules) (dotJoin p) count := by
  have htmA : translationMap (mkCfg L p (.arr vs) mw rules) =
      [((mkCfg L p (.arr vs) mw rules).locale ++ '.' :: dotJoin p, joinSep sep vs)] :=
    translationMap_mkCfg L p (.arr vs) mw rules hL hp
  have htmP : translationMap (mkCfg L p (.str (joinSep '|' vs)) mw rules) =
      [((mkCfg L p (.str (joinSep '|' vs)) mw rules).locale ++ '.' :: dotJoin p,
        pipeReplace (joinSep '|' vs))] :=
    translationMap_mkCfg L p (.str (joinSep '|' vs)) mw rules hL hp
  rw [applyPlural_single htmA rfl count, applyPlural_single htmP rfl count]
  by_cases hvs : vs = []
  · subst hvs
    rfl
  · have hTS := trimmedSplit_arr_pipe_eq hpf hvs
    have hmem := sep_mem_iff_of_trimmedSplit_eq hTS
    by_cases hsep : sep ∈ joinSep sep vs
    · rw [if_pos hsep, if_pos (hmem.mpr hsep), hTS]
      rfl
    · rw [if_neg hsep, if_neg (fun hm => hsep (hmem.mp hm)),
        val_eq_of_no_sep hpf hsep]

/-- Core of claim C10: a forged internal separator and a written pipe
produce the same trimmed variant table entry, for every message
string. -/
theorem trimmedSplit_pipeReplace_sepToPipe (s : Str) :
    trimmedSplit (pipeReplace (sepToPipe s)) = trimmedSplit (pipeReplace s) := by
  have hps : splitSep s ≠ [] := splitSep_ne_nil s
  have hsf : ∀ piece ∈ splitSep s, sep ∉ piece :=
    fun piece hp => sep_not_mem_of_mem_splitSep hp
  have hstp : sepToPipe s = joinSep '|' (splitSep s) := by
    conv_lhs => rw [← joinSep_splitSep s]
    exact sepToPipe_joinSep (splitSep s) hsf
  have hrs : trimmedSplit (pipeReplace s) =
      (splitSep s).flatMap (fun v => trimmedSplit (pipeReplace v)) := by
    conv_lhs => rw [← joinSep_splitSep s]
    rw [pipeReplace_joinSep_sep (splitSep s) hps,
      trimmedSplit_join ((splitSep s).map pipeReplace) (by simp [hps]),
      List.flatMap_map]
  rw [hstp, trimmedSplit_pipeReplace_join (splitSep s) hps, hrs]

/-! Idempotence of trimming, for claim C8. -/

theorem lstrip_idem (s : Str) : lstrip (lstrip s) = lstrip s := by
  induction s with
  | nil => rfl
  | cons c s' ih =>
    cases hc : isWS c with
    | true => rw [lstrip_cons, hc, if_pos rfl, ih]
    | false =>
      rw [lstrip_cons, hc]
      simp only [Bool.false_eq_true, if_false]
      rw [lstrip_cons, hc]
      simp

theorem rstrip_idem (s : Str) : rstrip (rstrip s) = rstrip s := by
  induction s with
  | nil => rfl
  | cons c s' ih =>
    cases hr : rstrip s' with
    | nil =>
      rw [rstrip_cons, hr]
      cases hc : isWS c with
      | true => simp [rstrip_nil]
      | false =>
        simp only [Bool.false_eq_true, if_false]
        rw [rstrip_cons, rstrip_nil]
        simp [hc]
    | cons a r =>
      have h1 : rstrip (c :: s') = c :: rstrip s' :=
        rstrip_cons_of_ne (by rw [hr]; simp) c
      rw [h1, rstrip_cons_of_ne (by rw [ih, hr]; simp) c, ih]

theorem trim_idem (s : Str) : trim (trim s) = trim s := by
  show lstrip (rstrip (lstrip (rstrip s))) = lstrip (rstrip s)
  have h1 : rstrip (lstrip (rstrip s)) = lstrip (rstrip s) := by
    rw [← lstrip_rstrip_comm (rstrip s), rstrip_idem s]
  rw [h1, lstrip_idem]

theorem trim_fixed_of_mem_trimmedSplit {s v : Str} (h : v ∈ trimmedSplit s) :
    trim v = v := by
  unfold trimmedSplit at h
  obtain ⟨piece, _, hv⟩ := List.mem_map.mp h
  rw [← hv, trim_idem]

/-- Claim C5 counterexample: for the variant list whose single variant
contains a pipe, the array declaration and the pipe-joined string
declaration produce different tc results: the array form keeps the pipe
verbatim while the string form splits at it, so the two encodings are
not observationally equivalent as claimed. -/
theorem claim_C5_counterexample :
    (tc cfgC5xa "k".data (.int 2) none).1 = some "x|y".data ∧
    (tc cfgC5xp "k".data (.int 2) none).1 = some "y".data ∧
    tc cfgC5xa "k".data (.int 2) none ≠ tc cfgC5xp "k".data (.int 2) none := by
  refine ⟨by decide, by decide, ?_⟩
  intro h
  have := congrArg Prod.fst h
  revert this
  decide

/-- Claim C5 (amended): for every locale, dot-path, variant list none of
whose variants contains a pipe character, count and params, declaring
the leaf as an array and declaring it as the variants joined by pipes
produce identical tc results. -/
theorem claim_C5 (L : Str) (p : List Str) (vs : List Str) (mw : Option Bool)
    (rules : List (Str × PluralRule)) (count : JsCount) (params : Option Params)
    (hL : L ≠ []) (hp : p ≠ []) (hpf : ∀ v ∈ vs, '|' ∉ v) :
    tc (mkCfg L p (.arr vs) mw rules) (dotJoin p) count params =
      tc (mkCfg L p (.str (joinSep '|' vs)) mw rules) (dotJoin p) count params := by
  cases count with
  | nan =>
    show (_, _) = (_, _)
    rw [applyPlural_C5 L p vs mw rules hL hp hpf 1]
    rfl
  | int n =>
    show (_, _) = (_, _)
    rw [applyPlural_C5 L p vs mw rules hL hp hpf n]

/-- Claim C5 witness: the amended equivalence at a concrete instance. -/
theorem claim_C5_witness :
    tc (mkCfg "en".data ["k".data] (.arr ["a".data, "b".data]) none [])
        (dotJoin ["k".data]) (.int 2) none =
      tc (mkCfg "en".data ["k".data]
          (.str (joinSep '|' ["a".data, "b".data])) none [])
        (dotJoin ["k".data]) (.int 2) none :=
  claim_C5 "en".data ["k".data] ["a".data, "b".data] none [] (.int 2) none
    (by decide) (by decide) (by decide)

/-- Claim C7: the built-in Russian rule maps a magnitude n to 0 when
n mod 10 is 1 and n mod 100 is not 11, to 1 when n mod 10 lies in two to
four and n mod 100 lies outside ten to nineteen, and to 2 otherwise; on
a Russian three-variant key, counts 1, 21, 31 select the first form,
counts 2, 3, 4, 22 the second, and counts 0, 5, 11, 15 the third. -/
theorem claim_C7 :
    (∀ n : Nat, ruRule n =
      if n % 10 = 1 ∧ n % 100 ≠ 11 then 0
      else if 2 ≤ n % 10 ∧ n % 10 ≤ 4 ∧ ¬(10 ≤ n % 100 ∧ n % 100 < 20) then 1
      else 2) ∧
    (tc cfgC7 "apple".data (.int 1) none).1 = some "A".data ∧
    (tc cfgC7 "apple".data (.int 21) none).1 = some "A".data ∧
    (tc cfgC7 "apple".data (.int 31) none).1 = some "A".data ∧
    (tc cfgC7 "apple".data (.int 2) none).1 = some "B".data ∧
    (tc cfgC7 "apple".data (.int 3) none).1 = some "B".data ∧
    (tc cfgC7 "apple".data (.int 4) none).1 = some "B".data ∧
    (tc cfgC7 "apple".data (.int 22) none).1 = some "B".data ∧
    (tc cfgC7 "apple".data (.int 0) none).1 = some "C".data ∧
    (tc cfgC7 "apple".data (.int 5) none).1 = some "C".data ∧
    (tc cfgC7 "apple".data (.int 11) none).1 = some "C".data ∧
    (tc cfgC7 "apple".data (.int 15) none).1 = some "C".data := by
  refine ⟨?_, by decide, by decide, by decide, by decide, by decide, by decide,
    by decide, by decide, by decide, by decide, by decide⟩
  intro n
  unfold ruRule
  split_ifs <;> omega

/-- Claim C8: every entry of the plural variant table is trimmed (no
leading or trailing whitespace survives in any stored variant), and the
leaf with whitespace around its pipe yields exactly the variants one and
many when tc selects a variant. -/
theorem claim_C8 :
    (∀ (cfg : Config) (q : Str) (fs : List Str), formsGet cfg q = some fs →
      ∀ v ∈ fs, trim v = v) ∧
    resolvedForms cfgC8 "k".data = some ["one".data, "many".data] ∧
    (tc cfgC8 "k".data (.int 1) none).1 = some "one".data ∧
    (tc cfgC8 "k".data (.int 2) none).1 = some "many".data := by
  refine ⟨?_, by decide, by decide, by decide⟩
  intro cfg q fs hfs v hv
  rw [formsGet_eq] at hfs
  cases hm : mapGet (translationMap cfg) q with
  | none => rw [hm] at hfs; exact absurd hfs (by simp)
  | some val =>
    rw [hm] at hfs
    have hfs' : (if sep ∈ val then some (trimmedSplit val) else none) = some fs := hfs
    by_cases hs : sep ∈ val
    · rw [if_pos hs] at hfs'
      have heq : fs = trimmedSplit val := (Option.some_inj.mp hfs').symm
      exact trim_fixed_of_mem_trimmedSplit (heq ▸ hv)
    · rw [if_neg hs] at hfs'
      exact absurd hfs' (by simp)

/-- Claim C8 witness: the trimmedness guarantee applied to the stored
variant table of the whitespace example. -/
theorem claim_C8_witness : trim "one".data = "one".data :=
  claim_C8.1 cfgC8 "en.k".data ["one".data, "many".data] (by decide)
    "one".data (by decide)

/-- Claim C9 counterexample: for a singleton array declaration, plain t
returns exactly the variant that tc selects at every count, so t does
return a selected variant for an array-declared key. -/
theorem claim_C9_counterexample :
    (t cfgC9x "k".data none).1 = "a".data ∧
    (tc cfgC9x "k".data (.int 1) none).1 = some "a".data ∧
    (tc cfgC9x "k".data (.int 5) none).1 = some "a".data := by
  refine ⟨by decide, by decide, by decide⟩

/-- Claim C9 (amended): for a key declared with plural variants that
yield at least two variants (a pipe-containing string, or an array of at
least two elements), plain t with no params returns the canonical
internal value, the variants joined by the separator character: for a
pipe string this differs from the original source string and from every
entry of the variant table, and likewise the joined array value differs
from every entry of the variant table; whitespace around pipes is
removed in the canonical value while the variants themselves are stored
untrimmed, as the concrete example shows. -/
theorem claim_C9 (L : Str) (p : List Str) (mw : Option Bool)
    (rules : List (Str × PluralRule)) (hL : L ≠ []) (hp : p ≠ []) :
    (∀ s : Str, '|' ∈ s →
      (t (mkCfg L p (.str s) mw rules) (dotJoin p) none).1 = pipeReplace s ∧
      pipeReplace s ≠ s ∧
      (∀ fs, resolvedForms (mkCfg L p (.str s) mw rules) (dotJoin p) = some fs →
        ∀ v ∈ fs, pipeReplace s ≠ v)) ∧
    (∀ (v w : Str) (r : List Str),
      (t (mkCfg L p (.arr (v :: w :: r)) mw rules) (dotJoin p) none).1 =
        joinSep sep (v :: w :: r) ∧
      (∀ fs, resolvedForms (mkCfg L p (.arr (v :: w :: r)) mw rules) (dotJoin p) = some fs →
        ∀ u ∈ fs, joinSep sep (v :: w :: r) ≠ u)) ∧
    (t cfgC8 "k".data none).1 = "  one".data ++ sep :: "many  ".data := by
  refine ⟨?_, ?_, by decide⟩
  · intro s hpipe
    have htm : translationMap (mkCfg L p (.str s) mw rules) =
        [((mkCfg L p (.str s) mw rules).locale ++ '.' :: dotJoin p, pipeReplace s)] :=
      translationMap_mkCfg L p (.str s) mw rules hL hp
    refine ⟨?_, pipeReplace_ne_of_pipe hpipe, ?_⟩
    · show (interpolate (getTranslation (mkCfg L p (.str s) mw rules) (dotJoin p)).1 none) = _
      rw [getTranslation_single htm, interpolate_none]
    · intro fs hfs v hv
      rw [resolvedForms_single htm rfl] at hfs
      have hsep : sep ∈ pipeReplace s := sep_mem_pipeGo_of_pipe hpipe false []
      rw [if_pos hsep] at hfs
      have hfs' : fs = trimmedSplit (pipeReplace s) :=
        (Option.some_inj.mp hfs).symm
      intro he
      exact sep_not_mem_of_mem_trimmedSplit (hfs' ▸ hv) (he ▸ hsep)
  · intro v w r
    have htm : translationMap (mkCfg L p (.arr (v :: w :: r)) mw rules) =
        [((mkCfg L p (.arr (v :: w :: r)) mw rules).locale ++ '.' :: dotJoin p,
          joinSep sep (v :: w :: r))] :=
      translationMap_mkCfg L p (.arr (v :: w :: r)) mw rules hL hp
    refine ⟨?_, ?_⟩
    · show (interpolate (getTranslation (mkCfg L p (.arr (v :: w :: r)) mw rules)
        (dotJoin p)).1 none) = _
      rw [getTranslation_single htm, interpolate_none]
    · intro fs hfs u hu
      rw [resolvedForms_single htm rfl] at hfs
      have hsep : sep ∈ joinSep sep (v :: w :: r) := sep_mem_joinSep_of_two v w r
      rw [if_pos hsep] at hfs
      have hfs' : fs = trimmedSplit (joinSep sep (v :: w :: r)) :=
        (Option.some_inj.mp hfs).symm
      intro he
      exact sep_not_mem_of_mem_trimmedSplit (hfs' ▸ hu) (he ▸ hsep)

/-- Claim C9 witness: the amended statement at a concrete pipe string. -/
theorem claim_C9_witness :
    (t (mkCfg "en".data ["k".data] (.str "a|b".data) none []) (dotJoin ["k".data]) none).1 =
      pipeReplace "a|b".data ∧
    pipeReplace "a|b".data ≠ "a|b".data :=
  ⟨(((claim_C9 "en".data ["k".data] none [] (by decide) (by decide)).1 "a|b".data
      (by decide)).1),
   (((claim_C9 "en".data ["k".data] none [] (by decide) (by decide)).1 "a|b".data
      (by decide)).2.1)⟩

theorem applyPlural_C10 (L : Str) (p : List Str) (s : Str) (mw : Option Bool)
    (rules : List (Str × PluralRule)) (hL : L ≠ []) (hp : p ≠ [])
    (hsep : sep ∈ s) (count : Int) :
    applyPlural (mkCfg L p (.str s) mw rules) (dotJoin p) count =
      applyPlural (mkCfg L p (.str (sepToPipe s)) mw rules) (dotJoin p) count := by
  have htmS : translationMap (mkCfg L p (.str s) mw rules) =
      [((mkCfg L p (.str s) mw rules).locale ++ '.' :: dotJoin p, pipeReplace s)] :=
    translationMap_mkCfg L p (.str s) mw rules hL hp
  have htmP : translationMap (mkCfg L p (.str (sepToPipe s)) mw rules) =
      [((mkCfg L p (.str (sepToPipe s)) mw rules).locale ++ '.' :: dotJoin p,
        pipeReplace (sepToPipe s))] :=
    translationMap_mkCfg L p (.str (sepToPipe s)) mw rules hL hp
  rw [applyPlural_single htmS rfl count, applyPlural_single htmP rfl count]
  have hTS := trimmedSplit_pipeReplace_sepToPipe s
  have hmem := sep_mem_iff_of_trimmedSplit_eq hTS
  have hsepS : sep ∈ pipeReplace s := sep_mem_pipeGo_of_sep hsep false []
  rw [if_pos hsepS, if_pos (hmem.mpr hsepS), hTS]
  rfl

/-- Claim C10: a message string containing the control character U+0001
keeps it through flattening (the internal separator is not escaped and
can be forged from caller input), enters the plural variant table split
at each separator occurrence into trimmed variants, and tc behaves
exactly as if pipe separators had been written in its place. -/
theorem claim_C10 (L : Str) (p : List Str) (s : Str) (mw : Option Bool)
    (rules : List (Str × PluralRule)) (count : JsCount) (params : Option Params)
    (hL : L ≠ []) (hp : p ≠ []) (hsep : sep ∈ s) :
    sep ∈ pipeReplace s ∧
    resolvedForms (mkCfg L p (.str s) mw rules) (dotJoin p) =
      some ((splitSep (pipeReplace s)).map trim) ∧
    tc (mkCfg L p (.str s) mw rules) (dotJoin p) count params =
      tc (mkCfg L p (.str (sepToPipe s)) mw rules) (dotJoin p) count params := by
  have hsepS : sep ∈ pipeReplace s := sep_mem_pipeGo_of_sep hsep false []
  have htm : translationMap (mkCfg L p (.str s) mw rules) =
      [((mkCfg L p (.str s) mw rules).locale ++ '.' :: dotJoin p, pipeReplace s)] :=
    translationMap_mkCfg L p (.str s) mw rules hL hp
  refine ⟨hsepS, ?_, ?_⟩
  · rw [resolvedForms_single htm rfl, if_pos hsepS]
    rfl
  · cases count with
    | nan =>
      show (_, _) = (_, _)
      rw [applyPlural_C10 L p s mw rules hL hp hsep 1]
      rfl
    | int n =>
      show (_, _) = (_, _)
      rw [applyPlural_C10 L p s mw rules hL hp hsep n]

/-- Claim C10 witness: the forged-separator behaviour at a concrete
string containing U+0001. -/
theorem claim_C10_witness :
    sep ∈ pipeReplace "a\x01b".data ∧
    resolvedForms (mkCfg "en".data ["k".data] (.str "a\x01b".data) none []) (dotJoin ["k".data]) =
      some ((splitSep (pipeReplace "a\x01b".data)).map trim) ∧
    tc (mkCfg "en".data ["k".data] (.str "a\x01b".data) none []) (dotJoin ["k".data])
        (.int 2) none =
      tc (mkCfg "en".data ["k".data] (.str (sepToPipe "a\x01b".data)) none [])
        (dotJoin ["k".data]) (.int 2) none :=
  claim_C10 "en".data ["k".data] "a\x01b".data none [] (.int 2) none
    (by decide) (by decide) (by decide)

/-! Equation lemmas for applyPlural and supporting facts for claims C1
and C2. -/

theorem applyPlural_no_forms {cfg : Config} {key : Str}
    (h : resolvedForms cfg key = none) (count : Int) :
    applyPlural cfg key count =
      (some (getTranslation cfg key).1, (getTranslation cfg key).2) := by
  unfold applyPlural
  rw [h]

theorem applyPlural_forms {cfg : Config} {key : Str} {forms : List Str}
    (h : resolvedForms cfg key = some forms) (hne : forms ≠ []) (count : Int) :
    applyPlural cfg key count =
      (jsElem forms (min (resolvedRule cfg count.natAbs) ((forms.length : Int) - 1)), []) := by
  unfold applyPlural
  rw [h]
  have h0 : ¬ forms.length = 0 := fun h0 => hne (List.length_eq_zero.mp h0)
  simp [h0]

theorem tc_int_fst (cfg : Config) (key : Str) (n : Int) :
    (tc cfg key (.int n) none).1 = (applyPlural cfg key n).1 := by
  show (applyPlural cfg key n).1.map (fun s => interpolate s none) = _
  exact optionMap_interpolate_none _

/-- Claim C1 counterexample: with a caller-supplied rule returning the
negative index -1 on a two-variant key, tc produces no string at all
(the JavaScript undefined of indexing the variant array at -1) instead
of degrading to the last available variant, so the claimed lower clamp
does not exist. -/
theorem claim_C1_counterexample :
    (tc cfgC1x "k".data (.int 2) none).1 = none ∧
    (tc cfgC1x "k".data (.int 2) none).1 ≠ some "b".data := by
  refine ⟨by decide, by decide⟩

/-- Claim C1 (amended): the variant-selection index is capped from above
only: when the resolved rule applied to the magnitude returns an index
at least the variant count, tc degrades to the last available variant;
an index inside the range selects its variant; a negative index is not
clamped and yields no string. -/
theorem claim_C1 (cfg : Config) (key : Str) (count : Int) (forms : List Str)
    (hforms : resolvedForms cfg key = some forms) (hne : forms ≠ []) :
    ((forms.length : Int) ≤ resolvedRule cfg count.natAbs →
      (tc cfg key (.int count) none).1 = forms.getLast?) ∧
    (0 ≤ resolvedRule cfg count.natAbs →
      resolvedRule cfg count.natAbs < (forms.length : Int) →
      (tc cfg key (.int count) none).1 =
        forms[(resolvedRule cfg count.natAbs).toNat]?) ∧
    (resolvedRule cfg count.natAbs < 0 →
      (tc cfg key (.int count) none).1 = none) := by
  have hlen : 0 < forms.length := List.length_pos.mpr hne
  rw [tc_int_fst, applyPlural_forms hforms hne count]
  refine ⟨?_, ?_, ?_⟩
  · intro hge
    have hmin : min (resolvedRule cfg count.natAbs) ((forms.length : Int) - 1) =
        (forms.length : Int) - 1 := min_eq_right (by omega)
    show jsElem forms _ = _
    rw [hmin]
    unfold jsElem
    rw [if_neg (by omega : ¬((forms.length : Int) - 1 < 0)),
      List.getLast?_eq_getElem? forms]
    congr 1
    omega
  · intro h0 hlt
    have hmin : min (resolvedRule cfg count.natAbs) ((forms.length : Int) - 1) =
        resolvedRule cfg count.natAbs := min_eq_left (by omega)
    show jsElem forms _ = _
    rw [hmin]
    unfold jsElem
    rw [if_neg (by omega)]
  · intro hneg
    have hmin : min (resolvedRule cfg count.natAbs) ((forms.length : Int) - 1) =
        resolvedRule cfg count.natAbs := min_eq_left (by omega)
    show jsElem forms _ = _
    rw [hmin]
    unfold jsElem
    rw [if_pos hneg]

/-- Claim C1 witness: a rule returning the above-range index 99 on a
two-variant key degrades to the last variant. -/
theorem claim_C1_witness :
    (tc cfgC1w "k".data (.int 2) none).1 = (["a".data, "b".data] : List Str).getLast? :=
  (claim_C1 cfgC1w "k".data 2 ["a".data, "b".data] (by decide) (by decide)).1 (by decide)

theorem mapGet_mem {α : Type} {bs : List (Str × α)} {k : Str} {r : α}
    (h : mapGet bs k = some r) : ∃ kv ∈ bs, kv.1 = k ∧ kv.2 = r := by
  induction bs with
  | nil => exact absurd h (by simp [mapGet_nil])
  | cons p rest ih =>
    obtain ⟨k', v⟩ := p
    rw [mapGet_cons] at h
    cases hr : mapGet rest k with
    | some r' =>
      rw [hr] at h
      obtain ⟨kv, hm, hk, hv⟩ := ih (hr.trans h)
      exact ⟨kv, List.mem_cons_of_mem _ hm, hk, hv⟩
    | none =>
      rw [hr] at h
      by_cases he : k = k'
      · rw [if_pos he] at h
        exact ⟨(k', v), List.mem_cons_self _ _, he.symm, Option.some_inj.mp h⟩
      · rw [if_neg he] at h
        exact absurd h (by simp)

theorem defaultRules_at_one {kv : Str × PluralRule}
    (h : kv ∈ defaultPluralRules) : 0 ≤ kv.2 1 ∧ kv.2 1 ≤ 1 := by
  fin_cases h <;> exact ⟨by decide, by decide⟩

theorem resolvedRule_at_one {cfg : Config} (hc : cfg.customPluralRules = []) :
    0 ≤ resolvedRule cfg 1 ∧ resolvedRule cfg 1 ≤ 1 := by
  have hbound : ∀ l r, rulesMapGet cfg l = some r → 0 ≤ r 1 ∧ r 1 ≤ 1 := by
    intro l r h
    unfold rulesMapGet at h
    rw [hc, List.append_nil] at h
    obtain ⟨kv, hm, _, hv⟩ := mapGet_mem h
    exact hv ▸ defaultRules_at_one hm
  unfold resolvedRule
  cases h1 : rulesMapGet cfg cfg.locale with
  | some r => exact hbound _ r h1
  | none =>
    cases h2 : rulesMapGet cfg cfg.fallbackLocale with
    | some r => exact hbound _ r h2
    | none => exact ⟨by decide, by decide⟩

/-- Claim C2 counterexample: on a plural key, tc with NaN count returns
the singular variant selected by the rule at count 1, not the plain
lookup value (the joined canonical string), so the NaN path does apply
pluralization rather than re-resolving as a plain un-pluralized
lookup. -/
theorem claim_C2_counterexample :
    (tc cfgC2x "apple".data .nan none).1 = some "one apple".data ∧
    (t cfgC2x "apple".data none).1 = "one apple".data ++ sep :: "many apples".data ∧
    (tc cfgC2x "apple".data .nan none).1 ≠ some ((t cfgC2x "apple".data none).1) := by
  refine ⟨by decide, by decide, by decide⟩

/-- Claim C2 (amended): tc with NaN count does not throw, emits the
NaN-count diagnostic exactly when missingWarn is enabled, and returns
the result of defaulting the count to 1 and re-resolving through the
pluralization path (pluralization applied with count 1); with no
caller-supplied rules the produced string is always defined. -/
theorem claim_C2 (cfg : Config) (key : Str) (params : Option Params) :
    (tc cfg key .nan params).1 = (tc cfg key (.int 1) params).1 ∧
    (tc cfg key .nan params).2 =
      (if cfg.missingWarn = some false then [] else [Diag.nanCount]) ++
        (tc cfg key (.int 1) params).2 ∧
    (cfg.customPluralRules = [] → ((tc cfg key .nan params).1).isSome = true) := by
  refine ⟨rfl, rfl, ?_⟩
  intro hc
  show ((applyPlural cfg key 1).1.map (fun s => interpolate s params)).isSome = true
  have hmap : ((applyPlural cfg key 1).1.map (fun s => interpolate s params)).isSome =
      ((applyPlural cfg key 1).1).isSome := Option.isSome_map ..
  rw [hmap]
  cases hforms : resolvedForms cfg key with
  | none =>
    rw [applyPlural_no_forms hforms 1]
    rfl
  | some forms =>
    by_cases hne : forms = []
    · subst hne
      have hap : applyPlural cfg key 1 =
          (some (getTranslation cfg key).1, (getTranslation cfg key).2) := by
        unfold applyPlural
        rw [hforms]
        rfl
      rw [hap]
      rfl
    · rw [applyPlural_forms hforms hne 1]
      obtain ⟨hr0, hr1⟩ := resolvedRule_at_one hc
      have hlen : 0 < forms.length := List.length_pos.mpr hne
      show (jsElem forms _).isSome = true
      have h1 : (1 : Int).natAbs = 1 := rfl
      rw [h1]
      unfold jsElem
      rw [if_neg (by omega : ¬(min (resolvedRule cfg 1) ((forms.length : Int) - 1) < 0))]
      have hidx : (min (resolvedRule cfg 1) ((forms.length : Int) - 1)).toNat <
          forms.length := by omega
      rw [List.getElem?_eq_getElem hidx]
      rfl

/-- Claim C2 witness: the amended NaN behaviour at the plural key of the
NaN-handling test. -/
theorem claim_C2_witness :
    (tc cfgC2x "apple".data .nan none).1 = (tc cfgC2x "apple".data (.int 1) none).1 ∧
    ((tc cfgC2x "apple".data .nan none).1).isSome = true :=
  ⟨(claim_C2 cfgC2x "apple".data none).1,
   (claim_C2 cfgC2x "apple".data none).2.2 rfl⟩

/-- Claim C4: plain lookup returns the flattened-index entry for the
current locale when present, otherwise the fallback-locale entry (so a
locale absent from the messages still resolves keys present in the
fallback locale, as the concrete fr-over-en instance shows), otherwise
emits a missing-translation warning unless missingWarn is false and
returns the key string itself; on empty messages the lookup of a.b.c
returns a.b.c. -/
theorem claim_C4 :
    (∀ (cfg : Config) (key : Str),
      (∀ v, mapGet (translationMap cfg) (cfg.locale ++ '.' :: key) = some v →
        t cfg key none = (v, [])) ∧
      (mapGet (translationMap cfg) (cfg.locale ++ '.' :: key) = none →
        ∀ v, mapGet (translationMap cfg) (cfg.fallbackLocale ++ '.' :: key) = some v →
          t cfg key none = (v, [])) ∧
      (mapGet (translationMap cfg) (cfg.locale ++ '.' :: key) = none →
        mapGet (translationMap cfg) (cfg.fallbackLocale ++ '.' :: key) = none →
          t cfg key none =
            (key, if cfg.missingWarn = some false then [] else [Diag.missingKey key]))) ∧
    t cfgC4w "greeting".data none = ("Hello".data, []) ∧
    t cfgC4e "a.b.c".data none = ("a.b.c".data, [Diag.missingKey "a.b.c".data]) := by
  refine ⟨?_, by decide, by decide⟩
  intro cfg key
  refine ⟨?_, ?_, ?_⟩
  · intro v hv
    show (interpolate (getTranslation cfg key).1 none, (getTranslation cfg key).2) = _
    unfold getTranslation
    rw [hv, interpolate_none]
  · intro h1 v hv
    show (interpolate (getTranslation cfg key).1 none, (getTranslation cfg key).2) = _
    unfold getTranslation
    rw [h1, hv, interpolate_none]
  · intro h1 h2
    show (interpolate (getTranslation cfg key).1 none, (getTranslation cfg key).2) = _
    unfold getTranslation
    rw [h1, h2, interpolate_none]
    rfl

/-- Claim C4 witness: the fallback clause applied at the concrete
configuration whose current locale is absent from the messages. -/
theorem claim_C4_witness : t cfgC4w "greeting".data none = ("Hello".data, []) :=
  (claim_C4.1 cfgC4w "greeting".data).2.1 (by decide) "Hello".data (by decide)

/-! Equation lemmas for replaceGo, for claim C6. -/

theorem replaceGo_none_cons (ps : Params) (c : Char) (rest : Str) :
    replaceGo ps none (c :: rest) =
      if c = '\x7b' then replaceGo ps (some []) rest
      else c :: replaceGo ps none rest := rfl

theorem replaceGo_word {c : Char} (h : isWordChar c = true) (ps : Params)
    (acc rest : Str) :
    replaceGo ps (some acc) (c :: rest) = replaceGo ps (some (acc ++ [c])) rest := by
  have h1 : replaceGo ps (some acc) (c :: rest) =
      if isWordChar c then replaceGo ps (some (acc ++ [c])) rest
      else if c = '\x7d' then
        if acc = [] then '\x7b' :: '\x7d' :: replaceGo ps none rest
        else
          match lookupParam ps acc with
          | some v => jsToString v ++ replaceGo ps none rest
          | none => '\x7b' :: (acc ++ '\x7d' :: replaceGo ps none rest)
      else if c = '\x7b' then '\x7b' :: (acc ++ replaceGo ps (some []) rest)
      else '\x7b' :: (acc ++ c :: replaceGo ps none rest) := rfl
  rw [h1, if_pos h]

theorem replaceGo_close_found {ps : Params} {acc : Str} {v : JsVal}
    (hacc : acc ≠ []) (hl : lookupParam ps acc = some v) (rest : Str) :
    replaceGo ps (some acc) ('\x7d' :: rest) =
      jsToString v ++ replaceGo ps none rest := by
  have hw : isWordChar '\x7d' = false := by decide
  have h1 : replaceGo ps (some acc) ('\x7d' :: rest) =
      if isWordChar '\x7d' then replaceGo ps (some (acc ++ ['\x7d'])) rest
      else if ('\x7d' : Char) = '\x7d' then
        if acc = [] then '\x7b' :: '\x7d' :: replaceGo ps none rest
        else
          match lookupParam ps acc with
          | some v => jsToString v ++ replaceGo ps none rest
          | none => '\x7b' :: (acc ++ '\x7d' :: replaceGo ps none rest)
      else if ('\x7d' : Char) = '\x7b' then '\x7b' :: (acc ++ replaceGo ps (some []) rest)
      else '\x7b' :: (acc ++ '\x7d' :: replaceGo ps none rest) := rfl
  rw [h1, hw]
  simp only [Bool.false_eq_true, if_false, if_pos rfl, if_neg hacc, hl]
  simp

theorem replaceGo_close_missing {ps : Params} {acc : Str}
    (hacc : acc ≠ []) (hl : lookupParam ps acc = none) (rest : Str) :
    replaceGo ps (some acc) ('\x7d' :: rest) =
      '\x7b' :: (acc ++ '\x7d' :: replaceGo ps none rest) := by
  have hw : isWordChar '\x7d' = false := by decide
  have h1 : replaceGo ps (some acc) ('\x7d' :: rest) =
      if isWordChar '\x7d' then replaceGo ps (some (acc ++ ['\x7d'])) rest
      else if ('\x7d' : Char) = '\x7d' then
        if acc = [] then '\x7b' :: '\x7d' :: replaceGo ps none rest
        else
          match lookupParam ps acc with
          | some v => jsToString v ++ replaceGo ps none rest
          | none => '\x7b' :: (acc ++ '\x7d' :: replaceGo ps none rest)
      else if ('\x7d' : Char) = '\x7b' then '\x7b' :: (acc ++ replaceGo ps (some []) rest)
      else '\x7b' :: (acc ++ '\x7d' :: replaceGo ps none rest) := rfl
  rw [h1, hw]
  simp only [Bool.false_eq_true, if_false, if_pos rfl, if_neg hacc, hl]
  simp

theorem replaceGo_acc {name : Str} (hword : ∀ c ∈ name, isWordChar c = true)
    (ps : Params) : ∀ (acc s' : Str),
    replaceGo ps (some acc) (name ++ s') = replaceGo ps (some (acc ++ name)) s' := by
  induction name with
  | nil => intro acc s'; simp
  | cons c name' ih =>
    intro acc s'
    show replaceGo ps (some acc) (c :: (name' ++ s')) = _
    rw [replaceGo_word (hword c (List.mem_cons_self _ _)) ps acc (name' ++ s'),
      ih (fun d hd => hword d (List.mem_cons_of_mem _ hd)) (acc ++ [c]) s',
      List.append_assoc]
    rfl

/-- Claim C6: interpolation returns the template unchanged when no
params are supplied; with params, a placeholder (left brace, a non-empty
run of word characters, right brace) whose identifier is a present key
is replaced by the standard string conversion of its value, a
placeholder whose identifier is absent is left as the literal
placeholder text, and any character that does not open a placeholder
passes through unchanged. -/
theorem claim_C6 :
    (∀ template : Str, interpolate template none = template) ∧
    (∀ (ps : Params) (name rest : Str) (v : JsVal),
      name ≠ [] → (∀ c ∈ name, isWordChar c = true) →
      lookupParam ps name = some v →
      replaceGo ps none ('\x7b' :: (name ++ '\x7d' :: rest)) =
        jsToString v ++ replaceGo ps none rest) ∧
    (∀ (ps : Params) (name rest : Str),
      name ≠ [] → (∀ c ∈ name, isWordChar c = true) →
      lookupParam ps name = none →
      replaceGo ps none ('\x7b' :: (name ++ '\x7d' :: rest)) =
        '\x7b' :: (name ++ '\x7d' :: replaceGo ps none rest)) ∧
    (∀ (ps : Params) (c : Char) (rest : Str), c ≠ '\x7b' →
      replaceGo ps none (c :: rest) = c :: replaceGo ps none rest) := by
  refine ⟨fun template => rfl, ?_, ?_, ?_⟩
  · intro ps name rest v hne hword hl
    rw [replaceGo_none_cons, if_pos rfl, replaceGo_acc hword ps [] ('\x7d' :: rest),
      List.nil_append, replaceGo_close_found hne hl rest]
  · intro ps name rest hne hword hl
    rw [replaceGo_none_cons, if_pos rfl, replaceGo_acc hword ps [] ('\x7d' :: rest),
      List.nil_append, replaceGo_close_missing hne hl rest]
  · intro ps c rest hc
    rw [replaceGo_none_cons, if_neg hc]

/-- Claim C6 witness: substitution of a present parameter and
preservation of an absent placeholder at concrete inputs. -/
theorem claim_C6_witness :
    replaceGo [("name".data, JsVal.str "Bob".data)] none
        ('\x7b' :: ("name".data ++ '\x7d' :: [])) =
      jsToString (JsVal.str "Bob".data) ++
        replaceGo [("name".data, JsVal.str "Bob".data)] none [] :=
  claim_C6.2.1 [("name".data, JsVal.str "Bob".data)] "name".data [] (JsVal.str "Bob".data)
    (by decide) (by decide) (by decide)

/-! Disambiguation of flattened composite keys, for claim C3. -/

theorem seg_disamb : ∀ (k k' t1 t2 : Str),
    '.' ∉ k → '.' ∉ k' → k ≠ k' →
    (t1 = [] ∨ ∃ r, t1 = '.' :: r) → (t2 = [] ∨ ∃ r, t2 = '.' :: r) →
    k ++ t1 ≠ k' ++ t2 := by
  intro k
  induction k with
  | nil =>
    intro k' t1 t2 _ hd' hne h1 h2
    cases k' with
    | nil => exact absurd rfl hne
    | cons c k'' =>
      have hc : c ≠ '.' := fun he => hd' (he ▸ List.mem_cons_self _ _)
      rcases h1 with h1 | ⟨r, h1⟩
      · subst h1; simp
      · subst h1
        intro he
        rw [List.nil_append, List.cons_append] at he
        exact hc (List.head_eq_of_cons_eq he).symm
  | cons c k2 ih =>
    intro k' t1 t2 hd hd' hne h1 h2
    cases k' with
    | nil =>
      have hc : c ≠ '.' := fun he => hd (he ▸ List.mem_cons_self _ _)
      rcases h2 with h2 | ⟨r, h2⟩
      · subst h2; simp
      · subst h2
        intro he
        rw [List.nil_append, List.cons_append] at he
        exact hc (List.head_eq_of_cons_eq he)
    | cons c' k2' =>
      by_cases hcc : c = c'
      · subst hcc
        have hk2 : k2 ≠ k2' := fun he => hne (by rw [he])
        intro he
        rw [List.cons_append, List.cons_append] at he
        exact ih k2' t1 t2 (fun hm => hd (List.mem_cons_of_mem _ hm))
          (fun hm => hd' (List.mem_cons_of_mem _ hm)) hk2 h1 h2
          (List.tail_eq_of_cons_eq he)
      · intro he
        rw [List.cons_append, List.cons_append] at he
        exact hcc (List.head_eq_of_cons_eq he)

theorem mkKey_append (pre a b : Str) : mkKey pre (a ++ b) = mkKey pre a ++ b := by
  unfold mkKey
  by_cases h : pre = []
  · simp [h]
  · simp [h]

theorem mkKey_ne_nil {pre k : Str} (hk : k ≠ []) : mkKey pre k ≠ [] := by
  unfold mkKey
  by_cases h : pre = []
  · simpa [h]
  · simp [h]

theorem mkKey_disamb {k k' : Str} (pre : Str) {t1 t2 : Str}
    (hd : '.' ∉ k) (hd' : '.' ∉ k') (hne : k ≠ k')
    (h1 : t1 = [] ∨ ∃ r, t1 = '.' :: r) (h2 : t2 = [] ∨ ∃ r, t2 = '.' :: r) :
    mkKey pre k ++ t1 ≠ mkKey pre k' ++ t2 := by
  unfold mkKey
  by_cases h : pre = []
  · rw [if_pos h, if_pos h]
    exact seg_disamb k k' t1 t2 hd hd' hne h1 h2
  · rw [if_neg h, if_neg h]
    intro he
    rw [List.append_assoc, List.append_assoc] at he
    have he2 := List.append_cancel_left he
    rw [List.cons_append, List.cons_append] at he2
    exact seg_disamb k k' t1 t2 hd hd' hne h1 h2 (List.tail_eq_of_cons_eq he2)

/-! Well-formedness unfolding lemmas. -/

theorem wfEntries_cons {k : Str} {v : Msg} {rest : Entries}
    (h : wfEntries (.cons k v rest) = true) :
    k ≠ [] ∧ '.' ∉ k ∧ k ∉ topKeys rest ∧ wfMsg v = true ∧ wfEntries rest = true := by
  have h' : (decide (k ≠ []) && decide ('.' ∉ k) && decide (k ∉ topKeys rest) &&
      wfMsg v && wfEntries rest) = true := h
  simp only [Bool.and_eq_true, decide_eq_true_eq] at h'
  exact ⟨h'.1.1.1.1, h'.1.1.1.2, h'.1.1.2, h'.1.2, h'.2⟩

theorem wf_topKeys : ∀ {es : Entries}, wfEntries es = true →
    ∀ k ∈ topKeys es, k ≠ [] ∧ '.' ∉ k
  | .nil, _, k, hk => absurd hk (by simp [topKeys])
  | .cons _ _ rest, h, k, hk => by
    obtain ⟨h1, h2, _, _, h5⟩ := wfEntries_cons h
    rcases List.mem_cons.mp hk with hk | hk
    · subst hk; exact ⟨h1, h2⟩
    · exact wf_topKeys h5 k hk

/-! The shape of flattened keys: every binding's key extends the
composite key of some top-level entry, by nothing or by a dot. -/

mutual
theorem flatten_shapeE : ∀ (es : Entries) (pre : Str), wfEntries es = true →
    ∀ kv ∈ flattenMessages es pre, ∃ k t, k ∈ topKeys es ∧
      (t = [] ∨ ∃ r, t = '.' :: r) ∧ kv.1 = mkKey pre k ++ t
  | .nil, pre, _, kv, hkv => absurd hkv (by simp [flattenMessages])
  | .cons k v rest, pre, hwf, kv, hkv => by
    obtain ⟨h1, _, _, h4, h5⟩ := wfEntries_cons hwf
    rcases List.mem_append.mp hkv with hm | hm
    · obtain ⟨t, ht, heq⟩ := flatten_shapeM v (mkKey pre k) (mkKey_ne_nil h1) h4 kv hm
      exact ⟨k, t, List.mem_cons_self _ _, ht, heq⟩
    · obtain ⟨k2, t, hk2, ht, heq⟩ := flatten_shapeE rest pre h5 kv hm
      exact ⟨k2, t, List.mem_cons_of_mem _ hk2, ht, heq⟩
theorem flatten_shapeM : ∀ (v : Msg) (fullKey : Str), fullKey ≠ [] →
    wfMsg v = true → ∀ kv ∈ flattenValue fullKey v,
      ∃ t, (t = [] ∨ ∃ r, t = '.' :: r) ∧ kv.1 = fullKey ++ t
  | .str s, fullKey, _, _, kv, hkv => by
    have : kv = (fullKey, pipeReplace s) := by
      simpa [flattenValue] using hkv
    exact ⟨[], Or.inl rfl, by rw [this, List.append_nil]⟩
  | .arr vs, fullKey, _, _, kv, hkv => by
    have : kv = (fullKey, joinSep sep vs) := by
      simpa [flattenValue] using hkv
    exact ⟨[], Or.inl rfl, by rw [this, List.append_nil]⟩
  | .obj es, fullKey, hne, hwf, kv, hkv => by
    obtain ⟨k2, t2, _, ht2, heq⟩ := flatten_shapeE es fullKey hwf kv hkv
    refine ⟨'.' :: (k2 ++ t2), Or.inr ⟨k2 ++ t2, rfl⟩, ?_⟩
    rw [heq]
    unfold mkKey
    rw [if_neg hne, List.append_assoc]
    rfl
end

/-! Reachability equations. -/

theorem reachesE_cons (k : Str) (v : Msg) (rest : Entries) (k' : Str)
    (p' : List Str) (s : Str) :
    reachesE (.cons k v rest) (k' :: p') s =
      if k' = k then reachesM v p' s else reachesE rest (k' :: p') s := rfl

theorem extKey_chain (pre k : Str) (p' : List Str) :
    mkKey pre (dotJoin (k :: p')) = extKey (mkKey pre k) p' := by
  cases p' with
  | nil => rfl
  | cons q p'' =>
    unfold extKey
    rw [if_neg (by simp : ¬(q :: p'') = []), dotJoin_cons k (by simp : (q :: p'') ≠ []),
      mkKey_append]

/-! The master lookup theorem: in a well-formed tree, the flattened map
resolves the composite key of a reachable string leaf to its canonical
value. -/

mutual
theorem flatten_lookupE : ∀ (es : Entries) (pre : Str) (p : List Str) (s : Str),
    wfEntries es = true → reachesE es p s = true →
    mapGet (flattenMessages es pre) (mkKey pre (dotJoin p)) = some (pipeReplace s)
  | .nil, _, p, s, _, hr => absurd hr (by cases p <;> simp [reachesE])
  | .cons k v rest, pre, [], s, _, hr => absurd hr (by simp [reachesE])
  | .cons k v rest, pre, k' :: p', s, hwf, hr => by
    obtain ⟨h1, h2, h3, h4, h5⟩ := wfEntries_cons hwf
    rw [reachesE_cons] at hr
    show mapGet (flattenValue (mkKey pre k) v ++ flattenMessages rest pre) _ = _
    rw [mapGet_append]
    by_cases hk : k' = k
    · subst hk
      rw [if_pos rfl] at hr
      have hrest : mapGet (flattenMessages rest pre) (mkKey pre (dotJoin (k' :: p'))) =
          none := by
        refine mapGet_eq_none ?_
        intro kv hkv
        obtain ⟨k2, t2, hk2, ht2, heq⟩ := flatten_shapeE rest pre h5 kv hkv
        rw [heq, extKey_chain pre k' p']
        obtain ⟨hk2ne, hk2d⟩ := wf_topKeys h5 k2 hk2
        have hkk2 : k2 ≠ k' := fun he => h3 (he ▸ hk2)
        have hshape : (if p' = [] then ([] : Str) else '.' :: dotJoin p') = [] ∨
            ∃ r, (if p' = [] then ([] : Str) else '.' :: dotJoin p') = '.' :: r := by
          by_cases hp' : p' = []
          · exact Or.inl (by rw [if_pos hp'])
          · exact Or.inr ⟨dotJoin p', by rw [if_neg hp']⟩
        have hext : extKey (mkKey pre k') p' =
            mkKey pre k' ++ (if p' = [] then ([] : Str) else '.' :: dotJoin p') := by
          unfold extKey
          by_cases hp' : p' = []
          · simp [hp']
          · simp [hp']
        rw [hext]
        exact mkKey_disamb pre hk2d h2 hkk2 ht2 hshape
      rw [hrest, extKey_chain pre k' p']
      exact flatten_lookupM v (mkKey pre k') p' s (mkKey_ne_nil h1) h4 hr
    · rw [if_neg hk] at hr
      rw [flatten_lookupE rest pre (k' :: p') s h5 hr]
theorem flatten_lookupM : ∀ (v : Msg) (K : Str) (p : List Str) (s : Str),
    K ≠ [] → wfMsg v = true → reachesM v p s = true →
    mapGet (flattenValue K v) (extKey K p) = some (pipeReplace s)
  | .str s', K, [], s, _, _, hr => by
    have hs : s' = s := by simpa [reachesM] using hr
    show mapGet [(K, pipeReplace s')] K = some (pipeReplace s)
    rw [mapGet_singleton, if_pos rfl, hs]
  | .str s', K, k :: p', s, _, _, hr => absurd hr (by simp [reachesM])
  | .arr vs, K, p, s, _, _, hr => absurd hr (by cases p <;> simp [reachesM])
  | .obj es, K, [], s, _, _, hr => absurd hr (by simp [reachesM])
  | .obj es, K, k :: p', s, hK, hwf, hr => by
    have hr' : reachesE es (k :: p') s = true := hr
    have hwf' : wfEntries es = true := hwf
    show mapGet (flattenMessages es K) _ = _
    have hext : extKey K (k :: p') = mkKey K (dotJoin (k :: p')) := by
      unfold extKey mkKey
      rw [if_neg (by simp : ¬(k :: p') = []), if_neg hK]
    rw [hext]
    exact flatten_lookupE es K (k :: p') s hwf' hr'
end

/-- Claim C3: in a well-formed message tree, every string leaf
containing no pipe character, reachable at the dot-path p in the tree of
locale L, is returned verbatim (character for character) by the plain
lookup t at the dot-joined key when the current locale is L and no
params are given. -/
theorem claim_C3 (cfg : Config) (p : List Str) (s : Str)
    (hwf : wfEntries cfg.messages = true)
    (hreach : reachesE cfg.messages (cfg.locale :: p) s = true)
    (hp : p ≠ []) (hpipe : '|' ∉ s) :
    (t cfg (dotJoin p) none).1 = s := by
  have hmap := flatten_lookupE cfg.messages [] (cfg.locale :: p) s hwf hreach
  have hq : mkKey [] (dotJoin (cfg.locale :: p)) = cfg.locale ++ '.' :: dotJoin p := by
    rw [show mkKey [] (dotJoin (cfg.locale :: p)) = dotJoin (cfg.locale :: p) from by
      simp [mkKey]]
    exact dotJoin_cons _ hp
  rw [hq] at hmap
  have hget : getTranslation cfg (dotJoin p) = (pipeReplace s, []) := by
    unfold getTranslation
    rw [show mapGet (translationMap cfg) (cfg.locale ++ '.' :: dotJoin p) =
      some (pipeReplace s) from hmap]
  show interpolate (getTranslation cfg (dotJoin p)).1 none = s
  rw [hget, interpolate_none, pipeReplace_no_pipe hpipe]

/-- Claim C3 witness: the round trip at a concrete nested tree. -/
theorem claim_C3_witness :
    (t cfgC3w (dotJoin ["a".data, "b".data]) none).1 = "hi".data :=
  claim_C3 cfgC3w ["a".data, "b".data] "hi".data (by decide) (by decide)
    (by decide) (by decide)

end NanoI18n
